import Mathlib

/-!
dir-ingest: a shallow embedding of the file-selection pipeline.

This file embeds the Go program `main.go` of the dir-ingest repository:
a directory walker that selects files (exclude globs, size limits,
include globs / default extension set), sorts the accepted set
(readme-first, then byte-lexicographic by path), and serializes it in
one of three formats (plain text, Markdown, Claude XML).

Modelling conventions:
* Byte strings (paths, patterns, file contents) are `List Nat`, each
  element one byte, matching Go's byte-oriented string handling.
* Go's `filepath.Match`, `utf8.DecodeRune` and `xml.EscapeText` are
  embedded faithfully from their Go standard-library sources, with bit
  masking written as `%`/`*` arithmetic (e.g. `b &&& 0x3F = b % 64` on
  the byte ranges involved).
* Loops whose termination is by consumption of a list are written with
  an explicit fuel counter decremented once per iteration; callers pass
  `length + 1`, which is sufficient because every iteration consumes at
  least one element.  Fuel exhaustion is encoded as `none` and is proved
  unreachable for the canonical fuel (`goMatch_fuel_sufficient` and the
  `*_fuel_sufficient` lemmas before it).
* `strings.ToLower` / `strings.EqualFold` are modelled on the ASCII
  range (the extension table and the readme filename are pure ASCII).
* The host OS is Unix: the path separator is `/` (byte 47) and
  `filepath.ToSlash` is the identity.
* The `-p` prepend-path rewriting of emitted path labels is not
  modelled; no property below concerns it.
-/

/-- Bytes of an ASCII string literal (used only on ASCII literals, where
Unicode code points and UTF-8 bytes coincide). -/
def bytesOf (s : String) : List Nat := s.toList.map Char.toNat

/-- Separator byte `/`. -/
def sepB : Nat := 47

/-- ASCII lower-casing of one byte (model of `strings.ToLower` on the
ASCII range). -/
def asciiLower (b : Nat) : Nat := if 65 ≤ b ∧ b ≤ 90 then b + 32 else b

/-- ASCII lower-casing of a byte string. -/
def lowerBytes (l : List Nat) : List Nat := l.map asciiLower

/-- Model of `strings.EqualFold` restricted to ASCII case folding. -/
def eqFold (a b : List Nat) : Bool := lowerBytes a = lowerBytes b

/-- Byte membership test (model of `strings.Contains` with a single-byte
needle, as in `strings.Contains(name, string(Separator))`). -/
def hasByte (x : Nat) : List Nat → Bool
  | [] => false
  | b :: rest => if b = x then true else hasByte x rest

theorem hasByte_eq_false_iff (x : Nat) (l : List Nat) :
    hasByte x l = false ↔ x ∉ l := by
  induction l with
  | nil => simp [hasByte]
  | cons b rest ih =>
      by_cases hb : b = x
      · subst hb; simp [hasByte]
      · simp [hasByte, hb, ih]
        intro h
        exact fun hx => hb hx.symm

/-- Go `<` on strings: strict byte-lexicographic order. -/
def listLtB : List Nat → List Nat → Bool
  | [], [] => false
  | [], _ :: _ => true
  | _ :: _, [] => false
  | a :: as, b :: bs => if a < b then true else if b < a then false else listLtB as bs

theorem listLtB_asymm : ∀ a b : List Nat, listLtB a b = true → listLtB b a = false
  | [], [] => by simp [listLtB]
  | [], _ :: _ => by simp [listLtB]
  | _ :: _, [] => by simp [listLtB]
  | a :: as, b :: bs => by
      simp only [listLtB]
      intro h
      by_cases hab : a < b
      · have : ¬ b < a := by omega
        simp [hab, this]
      · by_cases hba : b < a
        · simp [hab, hba] at h
        · have hh := listLtB_asymm as bs
          simp [hab, hba] at h ⊢
          exact hh h

theorem listLtB_trans : ∀ a b c : List Nat,
    listLtB a b = true → listLtB b c = true → listLtB a c = true
  | [], [], _ => by simp [listLtB]
  | [], _ :: _, [] => by simp [listLtB]
  | [], _ :: _, _ :: _ => by simp [listLtB]
  | _ :: _, [], _ => by simp [listLtB]
  | _ :: _, _ :: _, [] => by simp [listLtB]
  | a :: as, b :: bs, c :: cs => by
      simp only [listLtB]
      intro h1 h2
      by_cases hab : a < b
      · by_cases hbc : b < c
        · have : a < c := by omega
          simp [this]
        · by_cases hcb : c < b
          · simp [hbc, hcb] at h2
          · have hbc' : b = c := by omega
            subst hbc'
            simp [hab]
      · by_cases hba : b < a
        · simp [hab, hba] at h1
        · have hab' : a = b := by omega
          subst hab'
          by_cases hbc : a < c
          · simp [hbc]
          · by_cases hcb : c < a
            · simp [hbc, hcb] at h2
            · simp [hab, hbc, hcb] at h1 h2 ⊢
              exact listLtB_trans as bs cs h1 h2

theorem listLtB_total : ∀ a b : List Nat,
    listLtB a b = false → listLtB b a = false → a = b
  | [], [] => by simp
  | [], _ :: _ => by simp [listLtB]
  | _ :: _, [] => by simp [listLtB]
  | a :: as, b :: bs => by
      simp only [listLtB]
      intro h1 h2
      by_cases hab : a < b
      · simp [hab] at h1
      · by_cases hba : b < a
        · simp [hab, hba] at h1 h2
        · have hab' : a = b := by omega
          subst hab'
          simp [hab, hba] at h1 h2
          rw [listLtB_total as bs h1 h2]

/-! ## `utf8.DecodeRune`

Model of Go's `unicode/utf8.DecodeRune` on byte lists: returns the
decoded rune and its width.  Invalid encodings (bad first byte, bad
continuation byte, overlong/surrogate/out-of-range encodings, truncated
sequences) yield `(0xFFFD, 1)`; the empty input yields `(0xFFFD, 0)`.
Bit masking is written arithmetically: for the byte ranges involved,
`b &&& 0x1F = b % 32`, `b &&& 0x0F = b % 16`, `b &&& 0x07 = b % 8`,
`b &&& 0x3F = b % 64`. -/
def decodeRune (p : List Nat) : Nat × Nat :=
  match p with
  | [] => (0xFFFD, 0)
  | b0 :: rest =>
    if b0 < 0x80 then (b0, 1)
    else if b0 < 0xC2 then (0xFFFD, 1)
    else if b0 < 0xE0 then
      match rest with
      | b1 :: _ =>
        if 0x80 ≤ b1 ∧ b1 ≤ 0xBF then ((b0 % 32) * 64 + b1 % 64, 2)
        else (0xFFFD, 1)
      | [] => (0xFFFD, 1)
    else if b0 < 0xF0 then
      match rest with
      | b1 :: b2 :: _ =>
        if (if b0 = 0xE0 then 0xA0 else 0x80) ≤ b1 ∧
            b1 ≤ (if b0 = 0xED then 0x9F else 0xBF) then
          if 0x80 ≤ b2 ∧ b2 ≤ 0xBF then
            ((b0 % 16) * 4096 + (b1 % 64) * 64 + b2 % 64, 3)
          else (0xFFFD, 1)
        else (0xFFFD, 1)
      | _ => (0xFFFD, 1)
    else if b0 < 0xF5 then
      match rest with
      | b1 :: b2 :: b3 :: _ =>
        if (if b0 = 0xF0 then 0x90 else 0x80) ≤ b1 ∧
            b1 ≤ (if b0 = 0xF4 then 0x8F else 0xBF) then
          if 0x80 ≤ b2 ∧ b2 ≤ 0xBF then
            if 0x80 ≤ b3 ∧ b3 ≤ 0xBF then
              ((b0 % 8) * 262144 + (b1 % 64) * 4096 + (b2 % 64) * 64 + b3 % 64, 4)
            else (0xFFFD, 1)
          else (0xFFFD, 1)
        else (0xFFFD, 1)
      | _ => (0xFFFD, 1)
    else (0xFFFD, 1)

theorem decodeRune_width_pos (b : Nat) (rest : List Nat) :
    1 ≤ (decodeRune (b :: rest)).2 := by
  rcases rest with _ | ⟨b1, _ | ⟨b2, _ | ⟨b3, r⟩⟩⟩ <;>
    (simp only [decodeRune]; split_ifs <;> simp)

theorem decodeRune_width_le (p : List Nat) :
    (decodeRune p).2 ≤ p.length := by
  rcases p with _ | ⟨b0, _ | ⟨b1, _ | ⟨b2, _ | ⟨b3, r⟩⟩⟩⟩
  · simp [decodeRune]
  all_goals (simp only [decodeRune]; split_ifs <;> simp)

theorem decodeRune_ascii (b : Nat) (rest : List Nat) (r w : Nat)
    (h : decodeRune (b :: rest) = (r, w)) (hr : r < 0x80) :
    b = r ∧ w = 1 := by
  rcases rest with _ | ⟨b1, _ | ⟨b2, _ | ⟨b3, rr⟩⟩⟩ <;>
    (simp only [decodeRune] at h; split_ifs at h <;>
      (injection h with hr' hw'; omega))

theorem decodeRune_multibyte_ge (p : List Nat) (r w : Nat)
    (h : decodeRune p = (r, w)) (h2 : 2 ≤ w) :
    ∀ b ∈ p.take w, 0x80 ≤ b := by
  rcases p with _ | ⟨b0, _ | ⟨b1, _ | ⟨b2, _ | ⟨b3, rr⟩⟩⟩⟩
  · simp only [decodeRune] at h
    injection h with h1 h2'
    omega
  all_goals (
    simp only [decodeRune] at h
    split_ifs at h <;>
      (injection h with hv hw; subst hw; simp_all [List.take]; try omega))

/-! ## `filepath.Match`

Model of Go's `path/filepath.Match` (Unix build: separator `/`, and the
backslash escape is active).  `Option` wraps every fueled loop: `none`
means fuel exhaustion, which is unreachable for the canonical fuel
`length + 1` because every loop iteration consumes at least one list
element; `some (.error ())` is Go's `ErrBadPattern`.  `scanChunk`,
`getEsc`, the character-class range loop (`classRanges`), `matchChunk`
(`matchChunkFuel`), the star retry loop (`starLoop`) and the trailing
syntax validation loop (`validateRest`) are each translated from the
corresponding piece of `match.go`. -/

def exceptEqDec {e a : Type} [DecidableEq e] [DecidableEq a] :
    (x y : Except e a) → Decidable (x = y)
  | .ok x, .ok y =>
      if h : x = y then isTrue (by rw [h]) else isFalse (by intro hh; cases hh; exact h rfl)
  | .error x, .error y =>
      if h : x = y then isTrue (by rw [h]) else isFalse (by intro hh; cases hh; exact h rfl)
  | .ok _, .error _ => isFalse (by intro hh; cases hh)
  | .error _, .ok _ => isFalse (by intro hh; cases hh)

instance {e a : Type} [DecidableEq e] [DecidableEq a] : DecidableEq (Except e a) :=
  exceptEqDec

/-! ## `filepath.Match` -/

def dropStars : List Nat → Bool × List Nat
  | [] => (false, [])
  | b :: rest => if b = 42 then (true, (dropStars rest).2) else (false, b :: rest)

/-- The `Scan` loop of `scanChunk`: split the pattern at the first
top-level `*`, treating `\x` as literal and tracking `[`/`]` range
state.  The fuel counter (one unit per consumed byte, so `length` is
always enough) only discharges termination: a backslash consumes the
escaped byte via `take`/`drop`. -/
def scanBodyF : Nat → Bool → List Nat → List Nat × List Nat
  | 0, _, _ => ([], [])
  | _, _, [] => ([], [])
  | fuel + 1, ir, b :: rest =>
    if b = 92 then
      (92 :: rest.take 1 ++ (scanBodyF fuel ir (rest.drop 1)).1,
        (scanBodyF fuel ir (rest.drop 1)).2)
    else if b = 91 then
      (91 :: (scanBodyF fuel true rest).1, (scanBodyF fuel true rest).2)
    else if b = 93 then
      (93 :: (scanBodyF fuel false rest).1, (scanBodyF fuel false rest).2)
    else if b = 42 ∧ ir = false then ([], b :: rest)
    else (b :: (scanBodyF fuel ir rest).1, (scanBodyF fuel ir rest).2)

def scanBody (inrange : Bool) (p : List Nat) : List Nat × List Nat :=
  scanBodyF p.length inrange p

def scanChunk (p : List Nat) : Bool × List Nat × List Nat :=
  let st := dropStars p
  let pr := scanBody false st.2
  (st.1, pr.1, pr.2)

def getEsc (chunk : List Nat) : Except Unit (Nat × List Nat) :=
  match chunk with
  | [] => .error ()
  | b :: _ =>
    if b = 45 ∨ b = 93 then .error ()
    else
      match (if b = 92 then chunk.drop 1 else chunk) with
      | [] => .error ()
      | c1 :: c1rest =>
        let r := (decodeRune (c1 :: c1rest)).1
        let n := (decodeRune (c1 :: c1rest)).2
        if r = 0xFFFD ∧ n = 1 then .error ()
        else
          match (c1 :: c1rest).drop n with
          | [] => .error ()
          | nchunk => .ok (r, nchunk)

def classRanges (fuel : Nat) (chunk : List Nat) (r : Nat) (m : Bool) (nrange : Nat) :
    Option (Except Unit (List Nat × Bool)) :=
  match fuel with
  | 0 => none
  | fuel + 1 =>
    if chunk.head? = some 93 ∧ 0 < nrange then
      some (.ok (chunk.tail, m))
    else
      match getEsc chunk with
      | .error () => some (.error ())
      | .ok (lo, ch1) =>
        match ch1 with
        | 45 :: ch2 =>
          match getEsc ch2 with
          | .error () => some (.error ())
          | .ok (hi, ch3) =>
            classRanges fuel ch3 r (m || decide (lo ≤ r ∧ r ≤ hi)) (nrange + 1)
        | _ =>
          classRanges fuel ch1 r (m || decide (lo ≤ r ∧ r ≤ lo)) (nrange + 1)

def matchChunkFuel (fuel : Nat) (chunk s : List Nat) (failed : Bool) :
    Option (Except Unit (List Nat × Bool)) :=
  match fuel with
  | 0 => none
  | fuel + 1 =>
    match chunk with
    | [] => some (.ok (if failed then ([], false) else (s, true)))
    | c :: chunkRest =>
      let failed1 := failed || s.isEmpty
      if c = 91 then
        let r := if failed1 then 0 else (decodeRune s).1
        let s1 := if failed1 then s else s.drop (decodeRune s).2
        let negated : Bool := chunkRest.head? = some 94
        let chunk1 := if negated then chunkRest.tail else chunkRest
        match classRanges (chunk1.length + 1) chunk1 r false 0 with
        | none => none
        | some (.error ()) => some (.error ())
        | some (.ok (chunk2, m)) =>
          matchChunkFuel fuel chunk2 s1 (failed1 || (m == negated))
      else if c = 63 then
        if failed1 then matchChunkFuel fuel chunkRest s failed1
        else
          let failed2 : Bool := if s.head? = some 47 then true else failed1
          matchChunkFuel fuel chunkRest (s.drop (decodeRune s).2) failed2
      else if c = 92 then
        match chunkRest with
        | [] => some (.error ())
        | e :: chunkRest2 =>
          if failed1 then matchChunkFuel fuel chunkRest2 s failed1
          else
            let failed2 : Bool := if s.head? = some e then failed1 else true
            matchChunkFuel fuel chunkRest2 (s.drop 1) failed2
      else
        if failed1 then matchChunkFuel fuel chunkRest s failed1
        else
          let failed2 : Bool := if s.head? = some c then failed1 else true
          matchChunkFuel fuel chunkRest (s.drop 1) failed2

def starLoop (chunk : List Nat) (restEmpty : Bool) : List Nat → Option (Except Unit (Option (List Nat)))
  | [] => some (.ok none)
  | b :: nrest =>
    if b = 47 then some (.ok none)
    else
      match matchChunkFuel (chunk.length + 1) chunk nrest false with
      | none => none
      | some (.error ()) => some (.error ())
      | some (.ok (t, ok)) =>
        if ok then
          if restEmpty ∧ t.isEmpty = false then starLoop chunk restEmpty nrest
          else some (.ok (some t))
        else starLoop chunk restEmpty nrest

def validateRest (fuel : Nat) (pattern : List Nat) : Option (Except Unit Bool) :=
  match fuel with
  | 0 => none
  | fuel + 1 =>
    match pattern with
    | [] => some (.ok false)
    | _ =>
      let scr := scanChunk pattern
      match matchChunkFuel (scr.2.1.length + 1) scr.2.1 [] false with
      | none => none
      | some (.error ()) => some (.error ())
      | some (.ok _) => validateRest fuel scr.2.2

def matchFuel (fuel : Nat) (pattern name : List Nat) : Option (Except Unit Bool) :=
  match fuel with
  | 0 => none
  | fuel + 1 =>
    match pattern with
    | [] => some (.ok name.isEmpty)
    | _ =>
      let scr := scanChunk pattern
      let star := scr.1
      let chunk := scr.2.1
      let rest := scr.2.2
      if star ∧ chunk.isEmpty then
        some (.ok (!hasByte 47 name))
      else
        match matchChunkFuel (chunk.length + 1) chunk name false with
        | none => none
        | some (.error ()) => some (.error ())
        | some (.ok (t, ok)) =>
          if ok ∧ (t.isEmpty ∨ rest.isEmpty = false) then
            matchFuel fuel rest t
          else if star then
            match starLoop chunk rest.isEmpty name with
            | none => none
            | some (.error ()) => some (.error ())
            | some (.ok (some t2)) => matchFuel fuel rest t2
            | some (.ok none) => validateRest (rest.length + 1) rest
          else validateRest (rest.length + 1) rest

def goMatch (pattern name : List Nat) : Option (Except Unit Bool) :=
  matchFuel (pattern.length + 1) pattern name

def matchedBool (pattern name : List Nat) : Bool :=
  match goMatch pattern name with
  | some (.ok b) => b
  | _ => false

-- behavioral tests against Go's filepath.Match
example : matchedBool (bytesOf "*.go") (bytesOf "a.go") = true := by decide
example : matchedBool (bytesOf "*.go") (bytesOf "sub/a.go") = false := by decide
example : matchedBool (bytesOf "a[^b]c") (bytesOf "a/c") = true := by decide
example : matchedBool (bytesOf "*") (bytesOf "a/b") = false := by decide
example : matchedBool (bytesOf "*") (bytesOf "ab") = true := by decide
example : matchedBool (bytesOf "a?c") (bytesOf "a/c") = false := by decide
example : matchedBool (bytesOf "a?c") (bytesOf "abc") = true := by decide
example : matchedBool (bytesOf "[") (bytesOf "x") = false := by decide
example : goMatch (bytesOf "[") (bytesOf "x") = some (.error ()) := by decide
example : matchedBool (bytesOf "*.log") (bytesOf "keep.log") = true := by decide
example : matchedBool (bytesOf "") (bytesOf "") = true := by decide
example : matchedBool (bytesOf "") (bytesOf "x") = false := by decide
example : matchedBool (bytesOf "a*b") (bytesOf "ab") = true := by decide
example : matchedBool (bytesOf "a*b") (bytesOf "axxb") = true := by decide
example : matchedBool (bytesOf "a*b") (bytesOf "a/b") = false := by decide
example : matchedBool (bytesOf "ab[") (bytesOf "ab") = false := by decide
example : matchedBool (bytesOf "[a-c]x") (bytesOf "bx") = true := by decide
example : matchedBool (bytesOf "[a-c]x") (bytesOf "dx") = false := by decide
example : matchedBool (bytesOf "[^a-c]x") (bytesOf "dx") = true := by decide
example : matchedBool (bytesOf "a\\*b") (bytesOf "a*b") = true := by decide
example : matchedBool (bytesOf "a\\*b") (bytesOf "axb") = false := by decide
example : matchedBool (bytesOf "*.test.go") (bytesOf "a.test.go") = true := by decide
example : matchedBool (bytesOf "*.test.go") (bytesOf "a.go") = false := by decide
example : matchedBool (bytesOf "a*b*c") (bytesOf "axbxc") = true := by decide
example : matchedBool (bytesOf "node_modules") (bytesOf "node_modules") = true := by decide


/-! ## Extension tables and path helpers (`main.go`) -/

/-- Model of `filepath.Ext`: the suffix starting at the final dot in the
last path element (scanning backwards, stopping at a separator). -/
def extFind (acc : List Nat) : List Nat → List Nat
  | [] => []
  | b :: rest =>
    if b = 47 then [] else if b = 46 then 46 :: acc else extFind (b :: acc) rest

def goExt (p : List Nat) : List Nat := extFind [] p.reverse

/-- Model of `filepath.Base` (Unix): strip trailing separators, then take
the part after the last separator; empty input gives `"."`, an
all-separator input gives `"/"`. -/
def goBase (p : List Nat) : List Nat :=
  if p.isEmpty then [46]
  else
    let q := (p.reverse.dropWhile (fun b => b = 47)).reverse
    let r := (q.reverse.takeWhile (fun b => decide (b = 47) = false)).reverse
    if r.isEmpty then [47] else r

/-- `defaultExtensions` of `main.go`: the extensions included when no
`-i` pattern is given (keys of the Go map literal). -/
def defaultExtList : List (List Nat) :=
  [bytesOf ".go", bytesOf ".py", bytesOf ".js", bytesOf ".ts", bytesOf ".java",
   bytesOf ".c", bytesOf ".h", bytesOf ".cpp", bytesOf ".cs", bytesOf ".rs",
   bytesOf ".rb", bytesOf ".php", bytesOf ".swift", bytesOf ".kt", bytesOf ".kts",
   bytesOf ".scala", bytesOf ".pl", bytesOf ".pm", bytesOf ".sh",
   bytesOf ".html", bytesOf ".css", bytesOf ".scss", bytesOf ".less",
   bytesOf ".json", bytesOf ".yaml", bytesOf ".yml", bytesOf ".xml",
   bytesOf ".toml", bytesOf ".ini", bytesOf ".env",
   bytesOf ".md", bytesOf ".txt", bytesOf ".rst", bytesOf ".sql"]

def defaultExtensions (ext : List Nat) : Bool :=
  defaultExtList.any (fun e => decide (e = ext))

/-- `languageExtMap` of `main.go`: extension to Markdown language hint. -/
def languageExtList : List (List Nat × List Nat) :=
  [(bytesOf ".go", bytesOf "go"), (bytesOf ".py", bytesOf "python"),
   (bytesOf ".js", bytesOf "javascript"), (bytesOf ".ts", bytesOf "typescript"),
   (bytesOf ".java", bytesOf "java"), (bytesOf ".c", bytesOf "c"),
   (bytesOf ".h", bytesOf "c"), (bytesOf ".cpp", bytesOf "cpp"),
   (bytesOf ".cs", bytesOf "csharp"), (bytesOf ".rs", bytesOf "rust"),
   (bytesOf ".rb", bytesOf "ruby"), (bytesOf ".php", bytesOf "php"),
   (bytesOf ".swift", bytesOf "swift"), (bytesOf ".kt", bytesOf "kotlin"),
   (bytesOf ".kts", bytesOf "kotlin"), (bytesOf ".scala", bytesOf "scala"),
   (bytesOf ".pl", bytesOf "perl"), (bytesOf ".sh", bytesOf "bash"),
   (bytesOf ".html", bytesOf "html"), (bytesOf ".css", bytesOf "css"),
   (bytesOf ".scss", bytesOf "scss"), (bytesOf ".less", bytesOf "less"),
   (bytesOf ".json", bytesOf "json"), (bytesOf ".yaml", bytesOf "yaml"),
   (bytesOf ".yml", bytesOf "yaml"), (bytesOf ".xml", bytesOf "xml"),
   (bytesOf ".toml", bytesOf "toml"), (bytesOf ".ini", bytesOf "ini"),
   (bytesOf ".env", bytesOf "bash"), (bytesOf ".md", bytesOf "markdown"),
   (bytesOf ".txt", bytesOf "text"), (bytesOf ".rst", bytesOf "rst"),
   (bytesOf ".sql", bytesOf "sql")]

def lookupExt : List (List Nat × List Nat) → List Nat → List Nat
  | [], _ => []
  | (k, v) :: rest, e => if k = e then v else lookupExt rest e

/-- `getLanguageHint` of `main.go` (empty list = unknown, like Go's
zero-value map read). -/
def getLanguageHint (p : List Nat) : List Nat :=
  lookupExt languageExtList (lowerBytes (goExt p))

/-! ## The per-file decision pipeline (the `WalkDir` callback) -/

/-- Resolved configuration from CLI flags (`-s`, `-i`, `-e`). -/
structure Config where
  sizeLimitKB : Int
  includes : List (List Nat)
  excludes : List (List Nat)

/-- `maxSizeBytes := int64(*sizeLimitKB) * 1024`. -/
def Config.maxSizeBytes (cfg : Config) : Int := cfg.sizeLimitKB * 1024

inductive SkipReason where
  | excludedByPattern
  | infoError
  | tooLarge
  | empty
  | unreadable
  | unsupportedExt
deriving DecidableEq

/-- Outcome of the walk callback on one regular-file entry:
`accepted` (appended to `files`), `skipped` (appended to `skippedFiles`
with the given reason), or `silent` (no record at all). -/
inductive FileOutcome where
  | accepted (content : List Nat)
  | skipped (r : SkipReason)
  | silent
deriving DecidableEq

/-- The `for _, pattern := range patterns` loops of `main.go`:
does any pattern match the relative path (`Match` errors count as no
match, as in `matched, _ := filepath.Match(...)`). -/
def matchesAny (pats : List (List Nat)) (rel : List Nat) : Bool :=
  pats.any (fun p => matchedBool p rel)

/-- The include decision of `main.go`: explicit `-i` patterns if any
were given, otherwise the default extension set applied to the
lower-cased `filepath.Ext`. -/
def isIncludedB (cfg : Config) (relPath : List Nat) : Bool :=
  if 0 < cfg.includes.length then matchesAny cfg.includes relPath
  else defaultExtensions (lowerBytes (goExt relPath))

/-- The file branch of the `WalkDir` callback in `main.go`, in source
order: regular check, exclude patterns, `d.Info()` (`statErr`), size
check, empty check, include/default-extension check, `os.ReadFile`
(`readErr`). -/
def fileDecision (cfg : Config) (relPath : List Nat) (regular statErr : Bool)
    (size : Nat) (readErr : Bool) (content : List Nat) : FileOutcome :=
  if regular = false then .silent
  else if matchesAny cfg.excludes relPath then .skipped .excludedByPattern
  else if statErr then .skipped .infoError
  else if (size : Int) > cfg.maxSizeBytes then .skipped .tooLarge
  else if size = 0 then .skipped .empty
  else if isIncludedB cfg relPath then
    (if readErr then .skipped .unreadable else .accepted content)
  else if cfg.includes.isEmpty then .skipped .unsupportedExt
  else .silent

/-! ## The directory walk (`filepath.WalkDir` + the callback) -/

/-- In-memory filesystem tree.  A `file` carries its entry name, whether
it is a regular file, whether `d.Info()` fails (`statErr`), the size
`Info` reports, whether `os.ReadFile` fails (`readErr`), and its bytes.
A `dir` carries its name and whether `ReadDir` fails (`readErr`).
`size` and `content` are separate fields because `Info` and `ReadFile`
are separate system calls. -/
inductive FSNode where
  | file (name : List Nat) (regular : Bool) (statErr : Bool) (size : Nat)
         (readErr : Bool) (content : List Nat)
  | dir (name : List Nat) (readErr : Bool) (entries : List FSNode)

def nodeName : FSNode → List Nat
  | .file n _ _ _ _ _ => n
  | .dir n _ _ => n

/-- `fileData` of `main.go`. -/
structure fileData where
  path : List Nat
  content : List Nat
deriving DecidableEq

abbrev SkipEntry := List Nat × SkipReason

/-- The unconditional skip list for directories in `main.go`:
`.git`, `.hg`, `.svn`, `node_modules`. -/
def vcsDir (name : List Nat) : Bool :=
  decide (name = bytesOf ".git") || decide (name = bytesOf ".hg") ||
    decide (name = bytesOf ".svn") || decide (name = bytesOf "node_modules")

/-- `filepath.Rel` of a child: the root itself is `"."`; a child of the
root is its bare name; deeper entries join with `/`. -/
def childRel (rel name : List Nat) : List Nat :=
  if rel = [46] then name else rel ++ 47 :: name

mutual

/-- `filepath.WalkDir` with the callback of `main.go`.  Directories:
the VCS/dependency name check runs first, then exclude patterns (both
prune via `SkipDir`); a `ReadDir` failure is reported to the callback,
which returns the error, aborting the whole walk (`Except.error`, which
`main` turns into `log.Fatalf`).  Files: the callback never returns an
error; the outcome is accumulated. -/
def walkNode (cfg : Config) (node : FSNode) (rel : List Nat) :
    Except Unit (List fileData × List SkipEntry) :=
  match node with
  | .file _ regular statErr size readErr content =>
    match fileDecision cfg rel regular statErr size readErr content with
    | .accepted c => .ok ([⟨rel, c⟩], [])
    | .skipped r => .ok ([], [(rel, r)])
    | .silent => .ok ([], [])
  | .dir name readErr entries =>
    if vcsDir name then .ok ([], [])
    else if matchesAny cfg.excludes rel then .ok ([], [])
    else if readErr then .error ()
    else walkEntries cfg entries rel

def walkEntries (cfg : Config) (l : List FSNode) (rel : List Nat) :
    Except Unit (List fileData × List SkipEntry) :=
  match l with
  | [] => .ok ([], [])
  | n :: rest => do
    let a ← walkNode cfg n (childRel rel (nodeName n))
    let b ← walkEntries cfg rest rel
    .ok (a.1 ++ b.1, a.2 ++ b.2)

end

mutual

/-- The regular files the walk visits (everything under the root except
the contents of pruned subtrees); used to state the no-silent-drop
property. -/
def reachNode (cfg : Config) (node : FSNode) (rel : List Nat) : List (List Nat) :=
  match node with
  | .file _ regular _ _ _ _ => if regular then [rel] else []
  | .dir name _ entries =>
    if vcsDir name then []
    else if matchesAny cfg.excludes rel then []
    else reachEntries cfg entries rel

def reachEntries (cfg : Config) (l : List FSNode) (rel : List Nat) : List (List Nat) :=
  match l with
  | [] => []
  | n :: rest => reachNode cfg n (childRel rel (nodeName n)) ++ reachEntries cfg rest rel

end

/-! ## Sorting (`sort.Slice` comparator of `main.go`) -/

/-- Base name case-insensitively equals `readme.md`. -/
def isReadme (p : List Nat) : Bool := eqFold (goBase p) (bytesOf "readme.md")

/-- The `sort.Slice` less function of `main.go`: readme files first,
then byte-lexicographic path order. -/
def goLess (a b : fileData) : Bool :=
  if isReadme a.path ≠ isReadme b.path then isReadme a.path
  else listLtB a.path b.path

/-- Insertion realizing the comparator order (any `sort.Slice`-sorted
output satisfies the pairwise property proved below, since the
comparator is a strict weak order derived from a total key). -/
def insertFile (x : fileData) : List fileData → List fileData
  | [] => [x]
  | y :: l => if goLess x y then x :: y :: l else y :: insertFile x l

def sortFiles : List fileData → List fileData
  | [] => []
  | x :: l => insertFile x (sortFiles l)

/-! ## Serializers -/

/-- `len(content) > 0 && content[len-1] != '\n'`: whether `buildMarkdown`
forces a trailing newline before the closing fence. -/
def mdForced (c : List Nat) : Bool :=
  if c.isEmpty then false else if c.getLast? = some 10 then false else true

/-- The bytes `buildMarkdown` emits between the fence lines for one
file: the raw content plus the forced newline, if any. -/
def mdBody (c : List Nat) : List Nat := c ++ (if mdForced c then [10] else [])

/-- One file's Markdown section (`buildMarkdown` loop body). -/
def mdEntry (f : fileData) : List Nat :=
  bytesOf "```" ++ getLanguageHint f.path ++ bytesOf " path=" ++ f.path ++ [10]
    ++ mdBody f.content ++ bytesOf "```" ++ [10, 10]

/-- The separator line of `buildStandardText`: 48 `=` bytes and a
newline. -/
def sepLine : List Nat := List.replicate 48 61 ++ [10]

/-- One file's plain-text section (`buildStandardText` loop body). -/
def textEntry (f : fileData) : List Nat :=
  sepLine ++ bytesOf "FILE: " ++ f.path ++ [10] ++ sepLine ++ f.content ++ [10, 10]

/-- `xml.isInCharacterRange`: the XML 1.0 valid character ranges. -/
def isInCharacterRange (r : Nat) : Bool :=
  decide (r = 9 ∨ r = 10 ∨ r = 13 ∨ (32 ≤ r ∧ r ≤ 0xD7FF) ∨
    (0xE000 ≤ r ∧ r ≤ 0xFFFD) ∨ (0x10000 ≤ r ∧ r ≤ 0x10FFFF))

/-- Model of Go's `xml.EscapeText`: per decoded rune, the eight escaped
characters become entities (`&#34; &#39; &amp; &lt; &gt; &#x9; &#xA;
&#xD;`), XML-invalid runes and invalid encodings become the replacement
character U+FFFD (bytes `EF BF BD`), and everything else is copied
verbatim. -/
def xmlEscapeAux : Nat → List Nat → List Nat
  | 0, _ => []
  | _, [] => []
  | fuel + 1, s =>
    let r := (decodeRune s).1
    let w := (decodeRune s).2
    let piece :=
      if r = 34 then [38, 35, 51, 52, 59]
      else if r = 39 then [38, 35, 51, 57, 59]
      else if r = 38 then [38, 97, 109, 112, 59]
      else if r = 60 then [38, 108, 116, 59]
      else if r = 62 then [38, 103, 116, 59]
      else if r = 9 then [38, 35, 120, 57, 59]
      else if r = 10 then [38, 35, 120, 65, 59]
      else if r = 13 then [38, 35, 120, 68, 59]
      else if isInCharacterRange r = false ∨ (r = 0xFFFD ∧ w = 1) then [0xEF, 0xBF, 0xBD]
      else s.take w
    piece ++ xmlEscapeAux fuel (s.drop w)

def xmlEscape (c : List Nat) : List Nat := xmlEscapeAux c.length c

/-- Content is free of the lossy branch of `xml.EscapeText`: every
decoded rune is a valid XML character and no invalid encoding occurs. -/
def xmlCleanAux : Nat → List Nat → Bool
  | 0, [] => true
  | 0, _ => false
  | _, [] => true
  | fuel + 1, s =>
    let r := (decodeRune s).1
    let w := (decodeRune s).2
    if isInCharacterRange r = false ∨ (r = 0xFFFD ∧ w = 1) then false
    else xmlCleanAux fuel (s.drop w)

def xmlClean (c : List Nat) : Bool := xmlCleanAux c.length c

/-- Modelled from the spec: "XML entity-unescaping", the reversal of the
escaping that `xml.EscapeText` performs.  It resolves exactly the
entities the escaper emits (`&amp; &lt; &gt; &#34; &#39; &#x9; &#xA;
&#xD;`) and copies every other byte unchanged. -/
def xmlUnescapeAux : Nat → List Nat → List Nat
  | 0, _ => []
  | _, [] => []
  | fuel + 1, b :: rest =>
    if b = 38 then
      if rest.take 4 = [97, 109, 112, 59] then 38 :: xmlUnescapeAux fuel (rest.drop 4)
      else if rest.take 3 = [108, 116, 59] then 60 :: xmlUnescapeAux fuel (rest.drop 3)
      else if rest.take 3 = [103, 116, 59] then 62 :: xmlUnescapeAux fuel (rest.drop 3)
      else if rest.take 4 = [35, 51, 52, 59] then 34 :: xmlUnescapeAux fuel (rest.drop 4)
      else if rest.take 4 = [35, 51, 57, 59] then 39 :: xmlUnescapeAux fuel (rest.drop 4)
      else if rest.take 4 = [35, 120, 57, 59] then 9 :: xmlUnescapeAux fuel (rest.drop 4)
      else if rest.take 4 = [35, 120, 65, 59] then 10 :: xmlUnescapeAux fuel (rest.drop 4)
      else if rest.take 4 = [35, 120, 68, 59] then 13 :: xmlUnescapeAux fuel (rest.drop 4)
      else b :: xmlUnescapeAux fuel rest
    else b :: xmlUnescapeAux fuel rest

def xmlUnescape (t : List Nat) : List Nat := xmlUnescapeAux t.length t

/-- Modelled from the spec: the reversal of the Markdown framing — strip
the fence lines, and strip "the one forced trailing newline" exactly
when one was forced. -/
def mdStrip (body : List Nat) (forced : Bool) : List Nat :=
  if forced then body.dropLast else body

/-- One file's Claude-XML element (`buildClaudeXML` loop body). -/
def xmlEntry (f : fileData) : List Nat :=
  bytesOf "  <document path=\"" ++ xmlEscape f.path ++ bytesOf "\">\n    <content>"
    ++ xmlEscape f.content ++ bytesOf "</content>\n  </document>\n"

inductive OutFormat where
  | plain
  | markdown
  | claudeXML

def buildOutput : OutFormat → List fileData → List Nat
  | .plain, files => (files.map textEntry).foldr (· ++ ·) []
  | .markdown, files => (files.map mdEntry).foldr (· ++ ·) []
  | .claudeXML, files =>
      bytesOf "<documents>\n" ++ (files.map xmlEntry).foldr (· ++ ·) []
        ++ bytesOf "</documents>\n"

/-! ## The tail of `main`: diagnostics and output -/

/-- Diagnostic-stream events (`log` package writes, i.e. stderr). -/
inductive Diag where
  | skipReport (entries : List SkipEntry)
  | noFiles
  | ingested (n : Nat)
deriving DecidableEq

/-- `main` after flag parsing: run the walk (a walk error is
`log.Fatalf`, i.e. a non-zero exit, modelled as `Except.error`); report
skips on the diagnostic stream; sort; if nothing was accepted, print an
informational diagnostic and return (exit status zero) with nothing on
the primary stream; otherwise emit the serialized output on the primary
stream.  The first component of the result is the primary (stdout)
output. -/
def runMain (cfg : Config) (format : OutFormat) (root : FSNode) :
    Except Unit (List Nat × List Diag) :=
  match walkNode cfg root [46] with
  | .error e => .error e
  | .ok (files, skipped) =>
    let diag1 := if skipped.isEmpty then [] else [Diag.skipReport skipped]
    if files.isEmpty then .ok ([], diag1 ++ [Diag.noFiles])
    else
      .ok (buildOutput format (sortFiles files), diag1 ++ [Diag.ingested files.length])

/-! ## Sanity checks of the pipeline on the spec's scenario -/

example :
    walkNode ⟨1, [], []⟩
      (.dir (bytesOf "r") false
        [.file (bytesOf "a.go") true false 10 false (bytesOf "package a\n"),
         .file (bytesOf "README.md") true false 5 false (bytesOf "# doc\n"),
         .dir (bytesOf "node_modules") false
           [.file (bytesOf "x.js") true false 10 false (bytesOf "let x = 1\n")]])
      [46] =
    .ok ([⟨bytesOf "a.go", bytesOf "package a\n"⟩,
          ⟨bytesOf "README.md", bytesOf "# doc\n"⟩], []) := by decide

example :
    (sortFiles [⟨bytesOf "a.go", []⟩, ⟨bytesOf "README.md", []⟩]).map fileData.path =
      [bytesOf "README.md", bytesOf "a.go"] := by decide

/-! ## C1 -/

/-- C1 counterexample: with the default configuration (no `-i`
patterns), the file `a.xyz` — whose extension is not in the default set,
so the name-based default-extension check rejects it — still has its
size examined and receives a too-large skip record when it is one byte
over the limit.  The size check therefore does not run only after all
name-based filters have passed. -/
theorem c1_size_check_precedes_extension_check :
    defaultExtensions (lowerBytes (goExt (bytesOf "a.xyz"))) = false ∧
    fileDecision ⟨25, [], []⟩ (bytesOf "a.xyz") true false 25601 false [] =
      .skipped .tooLarge := by decide

/-- C1 (amended): in the per-file pipeline the size and emptiness checks
run after the exclude-pattern filter but before the include-pattern /
default-extension check: a file matching an exclude pattern is skipped
as excluded for every size (its size is never examined), while a file
passing the excludes with a healthy stat gets a too-large or empty skip
recorded regardless of the include/default-extension decision. -/
theorem c1_size_checks_after_excludes_before_includes (cfg : Config)
    (rel : List Nat) (statErr : Bool) (size : Nat) (readErr : Bool)
    (content : List Nat) :
    (matchesAny cfg.excludes rel = true →
      fileDecision cfg rel true statErr size readErr content =
        .skipped .excludedByPattern) ∧
    (matchesAny cfg.excludes rel = false → statErr = false →
      (size : Int) > cfg.maxSizeBytes →
      fileDecision cfg rel true statErr size readErr content = .skipped .tooLarge) ∧
    (matchesAny cfg.excludes rel = false → statErr = false →
      ¬ ((size : Int) > cfg.maxSizeBytes) → size = 0 →
      fileDecision cfg rel true statErr size readErr content = .skipped .empty) := by
  refine ⟨?_, ?_, ?_⟩ <;> (intros; simp_all [fileDecision])

/-- Witness for `c1_size_checks_after_excludes_before_includes`. -/
theorem c1_witness :
    matchesAny [bytesOf "*.txt"] (bytesOf "a.txt") = true ∧
    fileDecision ⟨25, [], [bytesOf "*.txt"]⟩ (bytesOf "a.txt") true false 3 false [] =
      .skipped .excludedByPattern ∧
    fileDecision ⟨25, [], []⟩ (bytesOf "a.go") true false 25601 false [] =
      .skipped .tooLarge ∧
    fileDecision ⟨25, [], []⟩ (bytesOf "a.go") true false 0 false [] =
      .skipped .empty := by
  refine ⟨by decide, ?_, ?_, ?_⟩
  · exact (c1_size_checks_after_excludes_before_includes
      ⟨25, [], [bytesOf "*.txt"]⟩ (bytesOf "a.txt") false 3 false []).1 (by decide)
  · exact (c1_size_checks_after_excludes_before_includes
      ⟨25, [], []⟩ (bytesOf "a.go") false 25601 false []).2.1 (by decide) rfl (by decide)
  · exact (c1_size_checks_after_excludes_before_includes
      ⟨25, [], []⟩ (bytesOf "a.go") false 0 false []).2.2 (by decide) rfl (by decide) rfl

/-! ## C2 -/

/-- C2: when at least one `-i` include pattern is supplied, a file is
accepted exactly when it survives the earlier pipeline stages (exclude
patterns, stat, size, emptiness), its relative path matches at least one
include pattern, and it is readable; the default-extension set does not
appear in this characterization at all, so a file whose extension is in
the default set but matches no include pattern is not accepted. -/
theorem c2_includes_override_defaults (cfg : Config) (rel : List Nat)
    (regular statErr : Bool) (size : Nat) (readErr : Bool) (content : List Nat)
    (hinc : cfg.includes ≠ []) :
    fileDecision cfg rel regular statErr size readErr content = .accepted content ↔
      (regular = true ∧ matchesAny cfg.excludes rel = false ∧ statErr = false ∧
        (size : Int) ≤ cfg.maxSizeBytes ∧ size ≠ 0 ∧
        matchesAny cfg.includes rel = true ∧ readErr = false) := by
  have hlen : 0 < cfg.includes.length := List.length_pos.mpr hinc
  simp only [fileDecision, isIncludedB, if_pos hlen]
  split_ifs <;> simp_all

/-- Witness for `c2_includes_override_defaults`: `b.md` has a default
extension but matches no include pattern, hence is not accepted;
`a.go` matches and is accepted. -/
theorem c2_witness :
    ([bytesOf "*.go"] ≠ ([] : List (List Nat))) ∧
    fileDecision ⟨25, [bytesOf "*.go"], []⟩ (bytesOf "a.go") true false 3 false
      (bytesOf "x") = .accepted (bytesOf "x") ∧
    fileDecision ⟨25, [bytesOf "*.go"], []⟩ (bytesOf "b.md") true false 3 false
      (bytesOf "x") ≠ .accepted (bytesOf "x") := by
  refine ⟨by decide, ?_, ?_⟩
  · exact (c2_includes_override_defaults ⟨25, [bytesOf "*.go"], []⟩ (bytesOf "a.go")
      true false 3 false (bytesOf "x") (by decide)).mpr (by decide)
  · intro h
    have := (c2_includes_override_defaults ⟨25, [bytesOf "*.go"], []⟩ (bytesOf "b.md")
      true false 3 false (bytesOf "x") (by decide)).mp h
    have hm : matchesAny [bytesOf "*.go"] (bytesOf "b.md") = true := this.2.2.2.2.2.1
    exact absurd hm (by decide)

/-! ## C3 -/

/-- C3: a directory entry named `.git`, `.hg`, `.svn` or `node_modules`
is pruned unconditionally — before exclude patterns, before the include
patterns could ever see a descendant, and even if its own listing would
fail — and a pruned directory (also one pruned by an exclude pattern)
contributes no accepted file and no skip record: none of its descendants
are visited, read, accepted, or recorded. -/
theorem c3_vcs_dirs_pruned_unconditionally (cfg : Config) (name : List Nat)
    (readErr : Bool) (entries : List FSNode) (rel : List Nat) :
    (vcsDir name = true →
      walkNode cfg (.dir name readErr entries) rel = .ok ([], [])) ∧
    (matchesAny cfg.excludes rel = true →
      walkNode cfg (.dir name readErr entries) rel = .ok ([], [])) := by
  constructor
  · intro h
    simp [walkNode, h]
  · intro h
    by_cases hv : vcsDir name = true <;> simp [walkNode, h, hv]

/-- Witness for `c3_vcs_dirs_pruned_unconditionally`: a `node_modules`
tree whose descendant `x.js` would match the include pattern `*` — and
whose listing even fails — is pruned with no trace. -/
theorem c3_witness :
    vcsDir (bytesOf "node_modules") = true ∧
    walkNode ⟨25, [bytesOf "*"], []⟩
      (.dir (bytesOf "node_modules") true
        [.file (bytesOf "x.js") true false 3 false (bytesOf "x")]) (bytesOf "node_modules") =
      .ok ([], []) := by
  refine ⟨by decide, ?_⟩
  exact (c3_vcs_dirs_pruned_unconditionally ⟨25, [bytesOf "*"], []⟩
    (bytesOf "node_modules") true
    [.file (bytesOf "x.js") true false 3 false (bytesOf "x")]
    (bytesOf "node_modules")).1 (by decide)

/-! ## C5 -/

/-- C5 counterexample: a per-entry filesystem error — a subdirectory
whose listing fails (e.g. permission denied) — is returned from the walk
callback, aborts the walk, and the run terminates with a failure
(`log.Fatalf`), even though an acceptable file sits next to it. -/
theorem c5_dir_read_error_is_fatal :
    runMain ⟨25, [], []⟩ .plain
      (.dir (bytesOf "r") false
        [.dir (bytesOf "sub") true [],
         .file (bytesOf "a.go") true false 3 false (bytesOf "x")]) = .error () := by
  decide

/-- C5 (amended): a stat failure on a file and a read failure on a file
each degrade that single entry to a skip record with a reason, and a
file entry never aborts the walk; but an error reported by the walker
itself for a directory entry (an unreadable directory) is returned from
the callback and aborts the whole walk fatally. -/
theorem c5_file_errors_degrade_to_skips (cfg : Config) (rel : List Nat)
    (size : Nat) (content : List Nat) :
    (matchesAny cfg.excludes rel = false →
      ∀ (readErr : Bool),
        fileDecision cfg rel true true size readErr content = .skipped .infoError) ∧
    (matchesAny cfg.excludes rel = false → (size : Int) ≤ cfg.maxSizeBytes →
      size ≠ 0 → isIncludedB cfg rel = true →
      fileDecision cfg rel true false size true content = .skipped .unreadable) ∧
    (∀ (name : List Nat) (regular statErr readErr : Bool),
      ∃ res, walkNode cfg (.file name regular statErr size readErr content) rel =
        .ok res) := by
  refine ⟨?_, ?_, ?_⟩
  · intro h readErr
    simp [fileDecision, h]
  · intro h hsz hnz hinc
    have : ¬ ((size : Int) > cfg.maxSizeBytes) := by omega
    simp [fileDecision, h, hsz, hnz, hinc, this]
  · intro name regular statErr readErr
    simp only [walkNode]
    rcases fileDecision cfg rel regular statErr size readErr content with c | r | _
    · exact ⟨_, rfl⟩
    · exact ⟨_, rfl⟩
    · exact ⟨_, rfl⟩

/-- Witness for `c5_file_errors_degrade_to_skips`. -/
theorem c5_witness :
    fileDecision ⟨25, [], []⟩ (bytesOf "a.go") true true 3 false [] =
      .skipped .infoError ∧
    fileDecision ⟨25, [], []⟩ (bytesOf "a.go") true false 3 true [] =
      .skipped .unreadable := by
  constructor
  · exact (c5_file_errors_degrade_to_skips ⟨25, [], []⟩ (bytesOf "a.go") 3 []).1
      (by decide) false
  · exact (c5_file_errors_degrade_to_skips ⟨25, [], []⟩ (bytesOf "a.go") 3 []).2.1
      (by decide) (by decide) (by decide) (by decide)

/-! ## C8 -/

/-- C8: with size limit `L = maxSizeBytes`, a (non-empty) file of
exactly `L` bytes passing every other check is accepted; a file of
`L + 1` bytes is skipped as too large whatever its extension or the
include patterns; and a zero-byte file is never accepted, for every
configuration, extension and include-pattern combination. -/
theorem c8_size_boundary (cfg : Config) (rel : List Nat) (statErr readErr : Bool)
    (size : Nat) (content : List Nat) :
    (matchesAny cfg.excludes rel = false → statErr = false → readErr = false →
      isIncludedB cfg rel = true → (size : Int) = cfg.maxSizeBytes → 0 < size →
      fileDecision cfg rel true statErr size readErr content = .accepted content) ∧
    ((size : Int) = cfg.maxSizeBytes + 1 → matchesAny cfg.excludes rel = false →
      statErr = false →
      fileDecision cfg rel true statErr size readErr content = .skipped .tooLarge) ∧
    (∀ (regular : Bool) (c : List Nat),
      fileDecision cfg rel regular statErr 0 readErr content ≠ .accepted c) := by
  refine ⟨?_, ?_, ?_⟩
  · intro hex hst hrd hinc hsz hpos
    have h1 : ¬ ((size : Int) > cfg.maxSizeBytes) := by omega
    have h2 : size ≠ 0 := by omega
    simp [fileDecision, hex, hst, hrd, hinc, h1, h2]
  · intro hsz hex hst
    have h1 : (size : Int) > cfg.maxSizeBytes := by omega
    simp [fileDecision, hex, hst, h1]
  · intro regular c
    simp only [fileDecision]
    split_ifs <;> simp_all

/-- Witness for `c8_size_boundary` (limit 25KB = 25600 bytes). -/
theorem c8_witness :
    fileDecision ⟨25, [], []⟩ (bytesOf "a.go") true false 25600 false (bytesOf "x") =
      .accepted (bytesOf "x") ∧
    fileDecision ⟨25, [], []⟩ (bytesOf "a.go") true false 25601 false (bytesOf "x") =
      .skipped .tooLarge ∧
    fileDecision ⟨25, [bytesOf "*.go"], []⟩ (bytesOf "a.go") true false 0 false [] ≠
      .accepted [] := by
  refine ⟨?_, ?_, ?_⟩
  · exact (c8_size_boundary ⟨25, [], []⟩ (bytesOf "a.go") false false 25600
      (bytesOf "x")).1 (by decide) rfl rfl (by decide) (by decide) (by decide)
  · exact (c8_size_boundary ⟨25, [], []⟩ (bytesOf "a.go") false false 25601
      (bytesOf "x")).2.1 (by decide) (by decide) rfl
  · exact (c8_size_boundary ⟨25, [bytesOf "*.go"], []⟩ (bytesOf "a.go") false false 0
      []).2.2 true []

/-! ## C9 -/

/-- C9: whenever the traversal completes with zero accepted files, the
program terminates successfully (no fatal error), writes nothing at all
to the primary output stream, and emits the informational
"no files matched" message on the diagnostic stream. -/
theorem c9_zero_files_success (cfg : Config) (format : OutFormat) (root : FSNode)
    (sk : List SkipEntry) (h : walkNode cfg root [46] = .ok ([], sk)) :
    ∃ ds, runMain cfg format root = .ok ([], ds) ∧ Diag.noFiles ∈ ds := by
  refine ⟨(if sk.isEmpty then [] else [Diag.skipReport sk]) ++ [Diag.noFiles], ?_, by simp⟩
  simp only [runMain, h]
  rfl

/-- Witness for `c9_zero_files_success`: an empty root directory. -/
theorem c9_witness :
    walkNode ⟨25, [], []⟩ (.dir (bytesOf "r") false []) [46] = .ok ([], []) ∧
    ∃ ds, runMain ⟨25, [], []⟩ .plain (.dir (bytesOf "r") false []) = .ok ([], ds) ∧
      Diag.noFiles ∈ ds := by
  exact ⟨by decide, c9_zero_files_success ⟨25, [], []⟩ .plain
    (.dir (bytesOf "r") false []) [] (by decide)⟩

/-! ## C4 -/

/-- C4 counterexample: with the include pattern `*.go`, the regular file
`a.txt` is visited by the walk (it is reachable, not inside any pruned
subtree) yet appears neither among the accepted files nor among the
skip records — it is silently dropped. -/
theorem c4_file_silently_dropped_under_includes :
    reachNode ⟨25, [bytesOf "*.go"], []⟩
      (.dir (bytesOf "r") false [.file (bytesOf "a.txt") true false 3 false (bytesOf "x")])
      [46] = [bytesOf "a.txt"] ∧
    walkNode ⟨25, [bytesOf "*.go"], []⟩
      (.dir (bytesOf "r") false [.file (bytesOf "a.txt") true false 3 false (bytesOf "x")])
      [46] = .ok ([], []) := by decide

/-- A silent outcome on a regular file forces explicit include patterns
(the comment in `main.go`: "Only log if not using custom includes"). -/
theorem fileDecision_silent_needs_includes (cfg : Config) (rel : List Nat)
    (statErr : Bool) (size : Nat) (readErr : Bool) (content : List Nat)
    (h : fileDecision cfg rel true statErr size readErr content = .silent) :
    cfg.includes ≠ [] := by
  intro hinc
  simp only [fileDecision] at h
  split_ifs at h <;> simp_all

mutual

/-- Helper for the no-silent-drop property, node form. -/
theorem walk_covers_node (cfg : Config) (hinc : cfg.includes = [])
    (node : FSNode) (rel : List Nat) (fs : List fileData) (sk : List SkipEntry)
    (h : walkNode cfg node rel = .ok (fs, sk)) :
    ∀ p ∈ reachNode cfg node rel, p ∈ fs.map fileData.path ∨ p ∈ sk.map Prod.fst := by
  match node with
  | .file name regular statErr size readErr content =>
    intro p hp
    simp only [reachNode] at hp
    by_cases hreg : regular = true
    · rw [if_pos hreg] at hp
      simp only [List.mem_singleton] at hp
      subst hp
      subst hreg
      simp only [walkNode] at h
      rcases hd : fileDecision cfg p true statErr size readErr content with c | r | _
      · rw [hd] at h
        injection h with h'
        injection h' with h1 h2
        subst h1
        left
        simp
      · rw [hd] at h
        injection h with h'
        injection h' with h1 h2
        subst h2
        right
        simp
      · exact absurd hinc (fileDecision_silent_needs_includes cfg p statErr size
          readErr content hd)
    · rw [if_neg hreg] at hp
      simp at hp
  | .dir name readErr entries =>
    intro p hp
    simp only [reachNode] at hp
    simp only [walkNode] at h
    by_cases hv : vcsDir name = true
    · rw [if_pos hv] at hp
      simp at hp
    · rw [if_neg hv] at hp
      simp only [Bool.not_eq_true] at hv
      rw [hv] at h
      simp only [Bool.false_eq_true, if_false] at h hp
      by_cases he : matchesAny cfg.excludes rel = true
      · rw [if_pos he] at hp
        simp at hp
      · rw [if_neg he] at hp
        simp only [Bool.not_eq_true] at he
        rw [he] at h
        simp only [Bool.false_eq_true, if_false] at h
        rcases hre : readErr with _ | _
        · rw [hre] at h
          simp only [Bool.false_eq_true, if_false] at h
          exact walk_covers_entries cfg hinc entries rel fs sk h p hp
        · rw [hre] at h
          simp at h

theorem walk_covers_entries (cfg : Config) (hinc : cfg.includes = [])
    (l : List FSNode) (rel : List Nat) (fs : List fileData) (sk : List SkipEntry)
    (h : walkEntries cfg l rel = .ok (fs, sk)) :
    ∀ p ∈ reachEntries cfg l rel, p ∈ fs.map fileData.path ∨ p ∈ sk.map Prod.fst := by
  match l with
  | [] =>
    simp only [walkEntries] at h
    injection h with h'
    injection h' with h1 h2
    subst h1; subst h2
    intro p hp
    simp [reachEntries] at hp
  | n :: rest =>
    intro p hp
    simp only [walkEntries] at h
    rcases ha : walkNode cfg n (childRel rel (nodeName n)) with e | a
    · rw [ha] at h
      simp [bind, Except.bind] at h
    · rcases hb : walkEntries cfg rest rel with e | b
      · rw [ha, hb] at h
        simp [bind, Except.bind] at h
      · rw [ha, hb] at h
        simp only [bind, Except.bind] at h
        injection h with h'
        injection h' with h1 h2
        subst h1; subst h2
        simp only [reachEntries, List.mem_append] at hp
        rcases hp with hp | hp
        · rcases walk_covers_node cfg hinc n (childRel rel (nodeName n)) a.1 a.2
            (by rw [ha]) p hp with hm | hm
          · left; simp only [List.map_append, List.mem_append]; left; exact hm
          · right; simp only [List.map_append, List.mem_append]; left; exact hm
        · rcases walk_covers_entries cfg hinc rest rel b.1 b.2
            (by rw [hb]) p hp with hm | hm
          · left; simp only [List.map_append, List.mem_append]; right; exact hm
          · right; simp only [List.map_append, List.mem_append]; right; exact hm

end

/-- C4 (amended): when no include patterns are supplied, every regular
file the walk visits (every regular file under the root not inside a
pruned subtree) appears either among the accepted files' paths or among
the skip records' paths — nothing is silently dropped; when include
patterns are supplied, files matching none of them are silently dropped
(see the counterexample). -/
theorem c4_no_silent_drop_without_includes (cfg : Config)
    (hinc : cfg.includes = []) (node : FSNode) (rel : List Nat)
    (fs : List fileData) (sk : List SkipEntry)
    (h : walkNode cfg node rel = .ok (fs, sk)) :
    ∀ p ∈ reachNode cfg node rel, p ∈ fs.map fileData.path ∨ p ∈ sk.map Prod.fst :=
  walk_covers_node cfg hinc node rel fs sk h

/-- Witness for `c4_no_silent_drop_without_includes`. -/
theorem c4_witness :
    bytesOf "a.txt" ∈
        ([⟨bytesOf "a.txt", bytesOf "x"⟩] : List fileData).map fileData.path ∨
      bytesOf "a.txt" ∈ ([] : List SkipEntry).map Prod.fst :=
  c4_no_silent_drop_without_includes ⟨25, [], []⟩ rfl
    (.dir (bytesOf "r") false [.file (bytesOf "a.txt") true false 3 false (bytesOf "x")])
    [46] [⟨bytesOf "a.txt", bytesOf "x"⟩] [] (by decide) (bytesOf "a.txt") (by decide)

/-! ## C6 -/

theorem goLess_asymm (a b : fileData) : goLess a b = true → goLess b a = false := by
  rcases ha : isReadme a.path <;> rcases hb : isReadme b.path <;>
    simp [goLess, ha, hb] <;> exact listLtB_asymm _ _

theorem goLess_trans (a b c : fileData) :
    goLess a b = true → goLess b c = true → goLess a c = true := by
  rcases ha : isReadme a.path <;> rcases hb : isReadme b.path <;>
      rcases hc : isReadme c.path <;> simp [goLess, ha, hb, hc] <;>
    exact listLtB_trans _ _ _

theorem insertFile_perm (x : fileData) (l : List fileData) :
    (insertFile x l).Perm (x :: l) := by
  induction l with
  | nil => exact List.Perm.refl _
  | cons y l ih =>
      simp only [insertFile]
      split_ifs
      · exact List.Perm.refl _
      · exact (List.Perm.cons y ih).trans (List.Perm.swap x y l)

theorem sortFiles_perm (l : List fileData) : (sortFiles l).Perm l := by
  induction l with
  | nil => exact List.Perm.refl _
  | cons x l ih =>
      exact (insertFile_perm x (sortFiles l)).trans (List.Perm.cons x ih)

theorem insertFile_pairwise (x : fileData) (l : List fileData)
    (h : List.Pairwise (fun a b => goLess b a = false) l) :
    List.Pairwise (fun a b => goLess b a = false) (insertFile x l) := by
  induction l with
  | nil => simp [insertFile]
  | cons y l ih =>
      rcases List.pairwise_cons.1 h with ⟨hy, hl⟩
      simp only [insertFile]
      split_ifs with hxy
      · refine List.pairwise_cons.2 ⟨?_, h⟩
        intro z hz
        rcases List.mem_cons.1 hz with rfl | hz
        · exact goLess_asymm x z hxy
        · by_contra hzx
          simp only [Bool.not_eq_false] at hzx
          have := goLess_trans z x y hzx hxy
          rw [hy z hz] at this
          cases this
      · refine List.pairwise_cons.2 ⟨?_, ih hl⟩
        intro z hz
        have hz' := (insertFile_perm x l).mem_iff.1 hz
        rcases List.mem_cons.1 hz' with rfl | hz'
        · simpa using hxy
        · exact hy z hz'

theorem sortFiles_pairwise (l : List fileData) :
    List.Pairwise (fun a b => goLess b a = false) (sortFiles l) := by
  induction l with
  | nil => simp [sortFiles]
  | cons x l ih => exact insertFile_pairwise x (sortFiles l) ih

theorem sortFiles_head_readme (l : List fileData) (x : fileData)
    (hx : x ∈ l) (hr : isReadme x.path = true) :
    ∃ h t, sortFiles l = h :: t ∧ isReadme h.path = true := by
  have hx' : x ∈ sortFiles l := (sortFiles_perm l).mem_iff.2 hx
  rcases hs : sortFiles l with _ | ⟨h, t⟩
  · rw [hs] at hx'
    cases hx'
  · refine ⟨h, t, rfl, ?_⟩
    rw [hs] at hx'
    rcases List.mem_cons.1 hx' with rfl | hx'
    · exact hr
    · have hp := sortFiles_pairwise l
      rw [hs] at hp
      have hto := (List.pairwise_cons.1 hp).1 x hx'
      rcases hhb : isReadme h.path with _ | _
      · exfalso
        rw [goLess] at hto
        rw [hr, hhb] at hto
        simp at hto
      · rfl

/-- C6: the emitted order is the two-key sort: the output is a
permutation of the collected set in which every readme-named file
(base name case-insensitively `readme.md`) precedes every other file,
files of equal readme status are in ascending byte-lexicographic path
order, and whenever any readme-named file was accepted, the first
emitted file is readme-named. -/
theorem c6_two_key_sort (l : List fileData) :
    (sortFiles l).Perm l ∧
    List.Pairwise (fun a b =>
      (isReadme b.path = true → isReadme a.path = true) ∧
      (isReadme a.path = isReadme b.path → listLtB b.path a.path = false))
      (sortFiles l) ∧
    (∀ x ∈ l, isReadme x.path = true →
      ∃ h t, sortFiles l = h :: t ∧ isReadme h.path = true) := by
  refine ⟨sortFiles_perm l, ?_, ?_⟩
  · refine (sortFiles_pairwise l).imp ?_
    intro a b hab
    constructor
    · intro hb
      rcases hha : isReadme a.path with _ | _
      · exfalso
        rw [goLess] at hab
        rw [hb, hha] at hab
        simp at hab
      · rfl
    · intro he
      rw [goLess] at hab
      rw [he] at hab
      simpa using hab
  · intro x hx hr
    exact sortFiles_head_readme l x hx hr

/-- Witness for `c6_two_key_sort`: a deep readme file sorts first. -/
theorem c6_witness :
    ∃ h t,
      sortFiles [⟨bytesOf "a.go", []⟩, ⟨bytesOf "sub/dir/README.md", []⟩] = h :: t ∧
        isReadme h.path = true :=
  (c6_two_key_sort [⟨bytesOf "a.go", []⟩, ⟨bytesOf "sub/dir/README.md", []⟩]).2.2
    ⟨bytesOf "sub/dir/README.md", []⟩ (by decide) (by decide)

/-! ## C7 -/

theorem xmlUnescapeAux_nil : ∀ f, xmlUnescapeAux f [] = []
  | 0 => rfl
  | _ + 1 => rfl

theorem decodeRune_width_one (b : Nat) (rest : List Nat) (r : Nat)
    (h : decodeRune (b :: rest) = (r, 1)) :
    r = 0xFFFD ∨ (b = r ∧ r < 0x80) := by
  rcases rest with _ | ⟨b1, _ | ⟨b2, _ | ⟨b3, rr⟩⟩⟩ <;>
    (simp only [decodeRune] at h; split_ifs at h <;>
      (injection h with h1 h2; omega))

theorem xmlUnescapeAux_copy : ∀ (bs : List Nat), (∀ b ∈ bs, b ≠ 38) →
    ∀ (t : List Nat) (fuel : Nat), bs.length ≤ fuel →
    xmlUnescapeAux fuel (bs ++ t) = bs ++ xmlUnescapeAux (fuel - bs.length) t := by
  intro bs
  induction bs with
  | nil => intro _ t fuel _; simp
  | cons b bs ih =>
      intro hb t fuel hf
      rcases fuel with _ | f
      · simp at hf
      · have hbne : b ≠ 38 := hb b (List.mem_cons_self b bs)
        simp only [List.cons_append, xmlUnescapeAux, if_neg hbne, List.append_eq]
        rw [ih (fun x hx => hb x (List.mem_cons_of_mem b hx)) t f (by simpa using hf)]
        simp [Nat.succ_sub_succ]

theorem unescEnt34 (f : Nat) (t : List Nat) :
    xmlUnescapeAux (f + 1) ([38, 35, 51, 52, 59] ++ t) = 34 :: xmlUnescapeAux f t := by
  simp [xmlUnescapeAux]

theorem unescEnt39 (f : Nat) (t : List Nat) :
    xmlUnescapeAux (f + 1) ([38, 35, 51, 57, 59] ++ t) = 39 :: xmlUnescapeAux f t := by
  simp [xmlUnescapeAux]

theorem unescEnt38 (f : Nat) (t : List Nat) :
    xmlUnescapeAux (f + 1) ([38, 97, 109, 112, 59] ++ t) = 38 :: xmlUnescapeAux f t := by
  simp [xmlUnescapeAux]

theorem unescEnt60 (f : Nat) (t : List Nat) :
    xmlUnescapeAux (f + 1) ([38, 108, 116, 59] ++ t) = 60 :: xmlUnescapeAux f t := by
  simp [xmlUnescapeAux]

theorem unescEnt62 (f : Nat) (t : List Nat) :
    xmlUnescapeAux (f + 1) ([38, 103, 116, 59] ++ t) = 62 :: xmlUnescapeAux f t := by
  simp [xmlUnescapeAux]

theorem unescEnt9 (f : Nat) (t : List Nat) :
    xmlUnescapeAux (f + 1) ([38, 35, 120, 57, 59] ++ t) = 9 :: xmlUnescapeAux f t := by
  simp [xmlUnescapeAux]

theorem unescEnt10 (f : Nat) (t : List Nat) :
    xmlUnescapeAux (f + 1) ([38, 35, 120, 65, 59] ++ t) = 10 :: xmlUnescapeAux f t := by
  simp [xmlUnescapeAux]

theorem unescEnt13 (f : Nat) (t : List Nat) :
    xmlUnescapeAux (f + 1) ([38, 35, 120, 68, 59] ++ t) = 13 :: xmlUnescapeAux f t := by
  simp [xmlUnescapeAux]

theorem entityCaseHelper (r : Nat) (piece s2 e2 : List Nat) (fuelU : Nat)
    (hstep : ∀ f t, xmlUnescapeAux (f + 1) (piece ++ t) = r :: xmlUnescapeAux f t)
    (hplen : 1 ≤ piece.length)
    (hfu : (piece ++ e2).length ≤ fuelU)
    (hrec : ∀ fU, e2.length ≤ fU → xmlUnescapeAux fU e2 = s2) :
    xmlUnescapeAux fuelU (piece ++ e2) = r :: s2 := by
  rcases fuelU with _ | f
  · exfalso
    rw [List.length_append] at hfu
    omega
  · rw [hstep f e2]
    rw [hrec f (by rw [List.length_append] at hfu; omega)]

theorem xml_roundtrip_aux : ∀ (fuelE : Nat) (s : List Nat), s.length ≤ fuelE →
    xmlCleanAux fuelE s = true →
    ∀ (fuelU : Nat), (xmlEscapeAux fuelE s).length ≤ fuelU →
      xmlUnescapeAux fuelU (xmlEscapeAux fuelE s) = s := by
  intro fuelE
  induction fuelE with
  | zero =>
      intro s hs _ fuelU _
      have hnil : s = [] := List.eq_nil_of_length_eq_zero (Nat.le_zero.1 hs)
      subst hnil
      simp [xmlEscapeAux, xmlUnescapeAux_nil]
  | succ fuelE ih =>
      intro s hs hclean fuelU hfu
      rcases s with _ | ⟨b, s2⟩
      · simp [xmlEscapeAux, xmlUnescapeAux_nil]
      · simp only [List.length_cons] at hs
        rcases hdr : decodeRune (b :: s2) with ⟨r, w⟩
        have hdr1 : (decodeRune (b :: s2)).1 = r := by rw [hdr]
        have hdr2 : (decodeRune (b :: s2)).2 = w := by rw [hdr]
        have hw1 : 1 ≤ w := by
          have := decodeRune_width_pos b s2
          rw [hdr2] at this
          exact this
        have hwle : w ≤ s2.length + 1 := by
          have := decodeRune_width_le (b :: s2)
          rw [hdr2] at this
          simpa using this
        simp only [xmlCleanAux, hdr1, hdr2] at hclean
        by_cases hinv : isInCharacterRange r = false ∨ (r = 0xFFFD ∧ w = 1)
        · rw [if_pos hinv] at hclean
          cases hclean
        · rw [if_neg hinv] at hclean
          have hdlen : ((b :: s2).drop w).length ≤ fuelE := by
            simp only [List.length_drop, List.length_cons]
            omega
          have hrec0 := ih ((b :: s2).drop w) hdlen hclean
          simp only [xmlEscapeAux, hdr1, hdr2] at hfu ⊢
          by_cases h34 : r = 34
          · rw [if_pos h34] at hfu ⊢
            obtain ⟨hbr, hww⟩ := decodeRune_ascii b s2 r w hdr (by omega)
            subst hww
            rw [List.drop_one, List.tail_cons] at hrec0 hfu ⊢
            rw [entityCaseHelper 34 [38, 35, 51, 52, 59] s2 _ fuelU unescEnt34 (by simp)
              hfu hrec0, hbr, h34]
          · rw [if_neg h34] at hfu ⊢
            by_cases h39 : r = 39
            · rw [if_pos h39] at hfu ⊢
              obtain ⟨hbr, hww⟩ := decodeRune_ascii b s2 r w hdr (by omega)
              subst hww
              rw [List.drop_one, List.tail_cons] at hrec0 hfu ⊢
              rw [entityCaseHelper 39 [38, 35, 51, 57, 59] s2 _ fuelU unescEnt39 (by simp)
                hfu hrec0, hbr, h39]
            · rw [if_neg h39] at hfu ⊢
              by_cases h38 : r = 38
              · rw [if_pos h38] at hfu ⊢
                obtain ⟨hbr, hww⟩ := decodeRune_ascii b s2 r w hdr (by omega)
                subst hww
                rw [List.drop_one, List.tail_cons] at hrec0 hfu ⊢
                rw [entityCaseHelper 38 [38, 97, 109, 112, 59] s2 _ fuelU unescEnt38 (by simp)
                  hfu hrec0, hbr, h38]
              · rw [if_neg h38] at hfu ⊢
                by_cases h60 : r = 60
                · rw [if_pos h60] at hfu ⊢
                  obtain ⟨hbr, hww⟩ := decodeRune_ascii b s2 r w hdr (by omega)
                  subst hww
                  rw [List.drop_one, List.tail_cons] at hrec0 hfu ⊢
                  rw [entityCaseHelper 60 [38, 108, 116, 59] s2 _ fuelU unescEnt60 (by simp)
                    hfu hrec0, hbr, h60]
                · rw [if_neg h60] at hfu ⊢
                  by_cases h62 : r = 62
                  · rw [if_pos h62] at hfu ⊢
                    obtain ⟨hbr, hww⟩ := decodeRune_ascii b s2 r w hdr (by omega)
                    subst hww
                    rw [List.drop_one, List.tail_cons] at hrec0 hfu ⊢
                    rw [entityCaseHelper 62 [38, 103, 116, 59] s2 _ fuelU unescEnt62 (by simp)
                      hfu hrec0, hbr, h62]
                  · rw [if_neg h62] at hfu ⊢
                    by_cases h9 : r = 9
                    · rw [if_pos h9] at hfu ⊢
                      obtain ⟨hbr, hww⟩ := decodeRune_ascii b s2 r w hdr (by omega)
                      subst hww
                      rw [List.drop_one, List.tail_cons] at hrec0 hfu ⊢
                      rw [entityCaseHelper 9 [38, 35, 120, 57, 59] s2 _ fuelU unescEnt9
                        (by simp) hfu hrec0, hbr, h9]
                    · rw [if_neg h9] at hfu ⊢
                      by_cases h10 : r = 10
                      · rw [if_pos h10] at hfu ⊢
                        obtain ⟨hbr, hww⟩ := decodeRune_ascii b s2 r w hdr (by omega)
                        subst hww
                        rw [List.drop_one, List.tail_cons] at hrec0 hfu ⊢
                        rw [entityCaseHelper 10 [38, 35, 120, 65, 59] s2 _ fuelU unescEnt10
                          (by simp) hfu hrec0, hbr, h10]
                      · rw [if_neg h10] at hfu ⊢
                        by_cases h13 : r = 13
                        · rw [if_pos h13] at hfu ⊢
                          obtain ⟨hbr, hww⟩ := decodeRune_ascii b s2 r w hdr (by omega)
                          subst hww
                          rw [List.drop_one, List.tail_cons] at hrec0 hfu ⊢
                          rw [entityCaseHelper 13 [38, 35, 120, 68, 59] s2 _ fuelU unescEnt13
                            (by simp) hfu hrec0, hbr, h13]
                        · rw [if_neg h13, if_neg hinv] at hfu ⊢
                          have htw : ((b :: s2).take w).length = w := by
                            rw [List.length_take, List.length_cons]
                            omega
                          have hno38 : ∀ x ∈ (b :: s2).take w, x ≠ 38 := by
                            intro x hx
                            rcases Nat.lt_or_ge w 2 with hw2 | hw2
                            · have hww : w = 1 := by omega
                              subst hww
                              simp only [List.take_succ_cons, List.take_zero,
                                List.mem_singleton] at hx
                              subst hx
                              rcases decodeRune_width_one x s2 r hdr with hf | ⟨hbr, _⟩
                              · exact absurd (Or.inr ⟨hf, rfl⟩) hinv
                              · rw [hbr]
                                exact h38
                            · have := decodeRune_multibyte_ge (b :: s2) r w hdr hw2 x hx
                              omega
                          have hle2 : ((b :: s2).take w).length ≤ fuelU := by
                            rw [List.length_append] at hfu
                            omega
                          rw [xmlUnescapeAux_copy _ hno38 _ fuelU hle2, htw]
                          rw [hrec0 (fuelU - w) (by rw [List.length_append, htw] at hfu; omega)]
                          exact List.take_append_drop w (b :: s2)

/-- C7 counterexample: a (non-empty) file consisting of a single NUL
byte is accepted unchanged by the pipeline, but `xml.EscapeText`
replaces the NUL — an XML-invalid character — with U+FFFD (bytes
`EF BF BD`); entity-unescaping the emitted content yields U+FFFD again,
not the original byte, so the XML round-trip fails. -/
theorem c7_nul_byte_not_roundtripped :
    xmlEscape [0] = [0xEF, 0xBF, 0xBD] ∧
    xmlUnescape (xmlEscape [0]) = [0xEF, 0xBF, 0xBD] ∧
    xmlUnescape (xmlEscape [0]) ≠ [0] := by decide

/-- C7 (amended): for every accepted file content, reversing the
Markdown framing — stripping the fence lines and the one forced
trailing newline when one was forced — restores the original bytes
exactly; and reversing the XML escaping by entity-unescaping restores
the original bytes exactly, provided the content contains no byte
sequence that `xml.EscapeText` lossily replaces with U+FFFD (i.e. it is
valid UTF-8 consisting of XML-valid characters); a file containing
such a sequence (e.g. a NUL byte) is not recovered. -/
theorem c7_content_roundtrip (c : List Nat) :
    mdStrip (mdBody c) (mdForced c) = c ∧
    (xmlClean c = true → xmlUnescape (xmlEscape c) = c) := by
  constructor
  · rcases hf : mdForced c with _ | _
    · simp [mdStrip, mdBody, hf]
    · simp [mdStrip, mdBody, hf]
  · intro hc
    simp only [xmlUnescape, xmlEscape] at *
    exact xml_roundtrip_aux c.length c le_rfl hc _ le_rfl

/-- Witness for `c7_content_roundtrip`: content with every escaped
character, a multi-byte rune and a trailing non-newline byte. -/
theorem c7_witness :
    xmlClean (bytesOf "a<b>&\"'x\t\r\n" ++ [0xC3, 0xA9]) = true ∧
    xmlUnescape (xmlEscape (bytesOf "a<b>&\"'x\t\r\n" ++ [0xC3, 0xA9])) =
      bytesOf "a<b>&\"'x\t\r\n" ++ [0xC3, 0xA9] ∧
    mdStrip (mdBody (bytesOf "a<b>&\"'x\t\r\n" ++ [0xC3, 0xA9]))
      (mdForced (bytesOf "a<b>&\"'x\t\r\n" ++ [0xC3, 0xA9])) =
      bytesOf "a<b>&\"'x\t\r\n" ++ [0xC3, 0xA9] := by
  refine ⟨by decide, ?_, ?_⟩
  · exact (c7_content_roundtrip (bytesOf "a<b>&\"'x\t\r\n" ++ [0xC3, 0xA9])).2 (by decide)
  · exact (c7_content_roundtrip (bytesOf "a<b>&\"'x\t\r\n" ++ [0xC3, 0xA9])).1

/-! ## C10 -/


/-! ## C10 -/

theorem scanBodyF_append : ∀ (fuel : Nat) (ir : Bool) (p : List Nat),
    p.length ≤ fuel → (scanBodyF fuel ir p).1 ++ (scanBodyF fuel ir p).2 = p := by
  intro fuel
  induction fuel with
  | zero =>
      intro ir p hp
      have : p = [] := List.eq_nil_of_length_eq_zero (Nat.le_zero.1 hp)
      subst this
      simp [scanBodyF]
  | succ fuel ih =>
      intro ir p hp
      rcases p with _ | ⟨b, rest⟩
      · simp [scanBodyF]
      · simp only [List.length_cons] at hp
        by_cases h92 : b = 92
        · subst h92
          simp [scanBodyF, List.append_assoc,
            ih ir rest.tail (by simp [List.length_tail]; omega)]
          rw [← List.drop_one, List.take_append_drop]
        · by_cases h91 : b = 91
          · subst h91
            simp [scanBodyF, h92, ih true rest (by omega : rest.length ≤ fuel)]
          · by_cases h93 : b = 93
            · subst h93
              simp [scanBodyF, h92, h91, ih false rest (by omega : rest.length ≤ fuel)]
            · by_cases h42 : b = 42 ∧ ir = false
              · simp [scanBodyF, h92, h91, h93, h42]
              · simp [scanBodyF, h92, h91, h93, h42,
                  ih ir rest (by omega : rest.length ≤ fuel)]

theorem dropStars_mem : ∀ (p : List Nat) (x : Nat), x ∈ (dropStars p).2 → x ∈ p := by
  intro p
  induction p with
  | nil => intro x hx; simp [dropStars] at hx
  | cons b rest ih =>
      intro x hx
      simp only [dropStars] at hx
      by_cases h42 : b = 42
      · rw [if_pos h42] at hx
        exact List.mem_cons_of_mem b (ih x hx)
      · rw [if_neg h42] at hx
        exact hx

/-- Both components of `scanChunk` draw their bytes from the pattern. -/
theorem scanChunk_mem (p : List Nat) (x : Nat)
    (hx : x ∈ (scanChunk p).2.1 ∨ x ∈ (scanChunk p).2.2) : x ∈ p := by
  apply dropStars_mem
  rcases hx with hx | hx <;>
    (simp only [scanChunk, scanBody] at hx
     rw [← scanBodyF_append (dropStars p).2.length false (dropStars p).2 le_rfl]
     simp only [List.mem_append]
     first
       | exact Or.inl hx
       | exact Or.inr hx)

/-- Once the `failed` flag of `matchChunk` is set, the chunk can no
longer report a successful match. -/
theorem matchChunkFuel_failed : ∀ (fuel : Nat) (chunk s t : List Nat) (ok : Bool),
    matchChunkFuel fuel chunk s true = some (.ok (t, ok)) → ok = false := by
  intro fuel
  induction fuel with
  | zero => intro chunk s t ok h; simp [matchChunkFuel] at h
  | succ fuel ih =>
      intro chunk s t ok h
      rcases chunk with _ | ⟨c, chunkRest⟩
      · simp only [matchChunkFuel, reduceIte, Option.some.injEq, Except.ok.injEq,
          Prod.mk.injEq] at h
        exact h.2.symm
      · simp only [matchChunkFuel, Bool.true_or, reduceIte] at h
        by_cases hc91 : c = 91
        · rw [if_pos hc91] at h
          rcases hcr : classRanges ((if (chunkRest.head? = some 94 : Bool) = true then
              chunkRest.tail else chunkRest).length + 1)
              (if (chunkRest.head? = some 94 : Bool) = true then chunkRest.tail
                else chunkRest) 0 false 0 with _ | e
          · rw [hcr] at h
            cases h
          · rcases e with e | ⟨chunk2, m⟩
            · rw [hcr] at h
              cases e
              cases h
            · rw [hcr] at h
              exact ih chunk2 s t ok h
        · rw [if_neg hc91] at h
          by_cases hc63 : c = 63
          · rw [if_pos hc63] at h
            exact ih chunkRest s t ok h
          · rw [if_neg hc63] at h
            by_cases hc92 : c = 92
            · rw [if_pos hc92] at h
              rcases chunkRest with _ | ⟨e, chunkRest2⟩
              · cases h
              · exact ih chunkRest2 s t ok h
            · rw [if_neg hc92] at h
              exact ih chunkRest s t ok h

/-- The bytes consumed for one rune never include the separator when
the first byte is not the separator. -/
theorem decode_take_no_sep (b : Nat) (s2 : List Nat) (hb : b ≠ 47) :
    ∀ x ∈ (b :: s2).take (decodeRune (b :: s2)).2, x ≠ 47 := by
  intro x hx
  rcases hdr : decodeRune (b :: s2) with ⟨r, w⟩
  have hdr2 : (decodeRune (b :: s2)).2 = w := by rw [hdr]
  rw [hdr2] at hx
  have hw1 : 1 ≤ w := by
    have := decodeRune_width_pos b s2
    rw [hdr2] at this
    exact this
  rcases Nat.lt_or_ge w 2 with hw2 | hw2
  · have hww : w = 1 := by omega
    subst hww
    simp only [List.take_succ_cons, List.take_zero, List.mem_singleton] at hx
    subst hx
    exact hb
  · have := decodeRune_multibyte_ge (b :: s2) r w hdr hw2 x hx
    omega

/-- A chunk free of separators and character classes consumes a
separator-free prefix of the name when it matches. -/
theorem matchChunkFuel_noSlash : ∀ (fuel : Nat) (chunk s t : List Nat),
    (∀ x ∈ chunk, x ≠ 47) → (∀ x ∈ chunk, x ≠ 91) →
    matchChunkFuel fuel chunk s false = some (.ok (t, true)) →
    ∃ u, s = u ++ t ∧ ∀ x ∈ u, x ≠ 47 := by
  intro fuel
  induction fuel with
  | zero => intro chunk s t h47 h91 h; simp [matchChunkFuel] at h
  | succ fuel ih =>
      intro chunk s t h47 h91 h
      rcases chunk with _ | ⟨c, chunkRest⟩
      · simp only [matchChunkFuel] at h
        simp at h
        exact ⟨[], by simp [h], by simp⟩
      · have hc91 : c ≠ 91 := fun hc => h91 c (List.mem_cons_self _ _) hc
        have h47r : ∀ x ∈ chunkRest, x ≠ 47 :=
          fun x hx => h47 x (List.mem_cons_of_mem c hx)
        have h91r : ∀ x ∈ chunkRest, x ≠ 91 :=
          fun x hx => h91 x (List.mem_cons_of_mem c hx)
        simp only [matchChunkFuel, Bool.false_or] at h
        rw [if_neg hc91] at h
        by_cases hc63 : c = 63
        · rw [if_pos hc63] at h
          rcases s with _ | ⟨b, s2⟩
          · simp only [List.isEmpty_nil, reduceIte] at h
            have := matchChunkFuel_failed fuel chunkRest [] t true h
            cases this
          · simp only [List.isEmpty_cons, reduceIte, List.head?_cons] at h
            by_cases hb47 : b = 47
            · have hcond : (some b = some 47) := by rw [hb47]
              rw [if_pos hcond] at h
              have := matchChunkFuel_failed fuel chunkRest _ t true h
              cases this
            · have hcond : ¬ (some b = some 47) := by
                intro hc
                exact hb47 (Option.some.inj hc)
              rw [if_neg hcond] at h
              rcases ih chunkRest ((b :: s2).drop (decodeRune (b :: s2)).2) t h47r h91r h
                with ⟨u, hu, hu47⟩
              refine ⟨(b :: s2).take (decodeRune (b :: s2)).2 ++ u, ?_, ?_⟩
              · rw [List.append_assoc, ← hu, List.take_append_drop]
              · intro x hx
                rcases List.mem_append.1 hx with hx | hx
                · exact decode_take_no_sep b s2 hb47 x hx
                · exact hu47 x hx
        · rw [if_neg hc63] at h
          by_cases hc92 : c = 92
          · rw [if_pos hc92] at h
            rcases chunkRest with _ | ⟨e, chunkRest2⟩
            · cases h
            · have he47 : e ≠ 47 := fun hc => h47r e (List.mem_cons_self _ _) hc
              have h47r2 : ∀ x ∈ chunkRest2, x ≠ 47 :=
                fun x hx => h47r x (List.mem_cons_of_mem e hx)
              have h91r2 : ∀ x ∈ chunkRest2, x ≠ 91 :=
                fun x hx => h91r x (List.mem_cons_of_mem e hx)
              rcases s with _ | ⟨b, s2⟩
              · simp only [List.isEmpty_nil, reduceIte] at h
                have := matchChunkFuel_failed fuel chunkRest2 [] t true h
                cases this
              · simp only [List.isEmpty_cons, reduceIte, List.head?_cons] at h
                by_cases hbe : (some b = some e)
                · rw [if_pos hbe] at h
                  have hb : b = e := Option.some.inj hbe
                  rcases ih chunkRest2 ((b :: s2).drop 1) t h47r2 h91r2 h
                    with ⟨u, hu, hu47⟩
                  refine ⟨b :: u, ?_, ?_⟩
                  · simp only [List.drop_succ_cons, List.drop_zero] at hu
                    simp [hu]
                  · intro x hx
                    rcases List.mem_cons.1 hx with rfl | hx
                    · rw [hb]; exact he47
                    · exact hu47 x hx
                · rw [if_neg hbe] at h
                  have := matchChunkFuel_failed fuel chunkRest2 _ t true h
                  cases this
          · rw [if_neg hc92] at h
            have hc47 : c ≠ 47 := fun hc => h47 c (List.mem_cons_self _ _) hc
            rcases s with _ | ⟨b, s2⟩
            · simp only [List.isEmpty_nil, reduceIte] at h
              have := matchChunkFuel_failed fuel chunkRest [] t true h
              cases this
            · simp only [List.isEmpty_cons, reduceIte, List.head?_cons] at h
              by_cases hbc : (some b = some c)
              · rw [if_pos hbc] at h
                have hb : b = c := Option.some.inj hbc
                rcases ih chunkRest ((b :: s2).drop 1) t h47r h91r h with ⟨u, hu, hu47⟩
                refine ⟨b :: u, ?_, ?_⟩
                · simp only [List.drop_succ_cons, List.drop_zero] at hu
                  simp [hu]
                · intro x hx
                  rcases List.mem_cons.1 hx with rfl | hx
                  · rw [hb]; exact hc47
                  · exact hu47 x hx
              · rw [if_neg hbc] at h
                have := matchChunkFuel_failed fuel chunkRest _ t true h
                cases this

theorem starLoop_noSlash : ∀ (n : List Nat) (chunk : List Nat) (re : Bool) (t : List Nat),
    (∀ x ∈ chunk, x ≠ 47) → (∀ x ∈ chunk, x ≠ 91) →
    starLoop chunk re n = some (.ok (some t)) →
    ∃ u, n = u ++ t ∧ ∀ x ∈ u, x ≠ 47 := by
  intro n
  induction n with
  | nil => intro chunk re t _ _ h; simp [starLoop] at h
  | cons b nrest ih =>
      intro chunk re t h47 h91 h
      simp only [starLoop] at h
      by_cases hb47 : b = 47
      · rw [if_pos hb47] at h
        simp at h
      · rw [if_neg hb47] at h
        rcases hm : matchChunkFuel (chunk.length + 1) chunk nrest false with _ | e
        · rw [hm] at h
          cases h
        · rcases e with e | ⟨t2, okb⟩
          · rw [hm] at h
            cases e
            cases h
          · rw [hm] at h
            rcases okb with _ | _
            · simp only [Bool.false_eq_true, if_false] at h
              rcases ih chunk re t h47 h91 h with ⟨u, hu, hu47⟩
              refine ⟨b :: u, by simp [hu], ?_⟩
              intro x hx
              rcases List.mem_cons.1 hx with rfl | hx
              · exact hb47
              · exact hu47 x hx
            · simp only [if_pos rfl] at h
              by_cases hre : re = true ∧ t2.isEmpty = false
              · rw [if_pos hre] at h
                rcases ih chunk re t h47 h91 h with ⟨u, hu, hu47⟩
                refine ⟨b :: u, by simp [hu], ?_⟩
                intro x hx
                rcases List.mem_cons.1 hx with rfl | hx
                · exact hb47
                · exact hu47 x hx
              · rw [if_neg hre] at h
                injection h with h1
                injection h1 with h2
                injection h2 with h3
                subst h3
                rcases matchChunkFuel_noSlash (chunk.length + 1) chunk nrest t2 h47 h91 hm
                  with ⟨u, hu, hu47⟩
                refine ⟨b :: u, by simp [hu], ?_⟩
                intro x hx
                rcases List.mem_cons.1 hx with rfl | hx
                · exact hb47
                · exact hu47 x hx

theorem validateRest_not_ok_true : ∀ (fuel : Nat) (p : List Nat),
    validateRest fuel p ≠ some (.ok true) := by
  intro fuel
  induction fuel with
  | zero => intro p h; simp [validateRest] at h
  | succ fuel ih =>
      intro p h
      rcases p with _ | ⟨b, rest⟩
      · simp [validateRest] at h
      · simp only [validateRest] at h
        rcases hm : matchChunkFuel ((scanChunk (b :: rest)).2.1.length + 1)
            (scanChunk (b :: rest)).2.1 [] false with _ | e
        · rw [hm] at h
          cases h
        · rcases e with e | pr
          · rw [hm] at h
            cases e
            cases h
          · rw [hm] at h
            exact ih _ h

/-- A pattern containing neither the separator `/` nor a character
class `[` can only match separator-free names. -/
theorem matchFuel_noSlash : ∀ (fuel : Nat) (p n : List Nat),
    (∀ x ∈ p, x ≠ 47) → (∀ x ∈ p, x ≠ 91) →
    matchFuel fuel p n = some (.ok true) →
    ∀ x ∈ n, x ≠ 47 := by
  intro fuel
  induction fuel with
  | zero => intro p n _ _ h; simp [matchFuel] at h
  | succ fuel ih =>
      intro p n h47 h91 h
      rcases p with _ | ⟨pb, prest⟩
      · simp only [matchFuel] at h
        injection h with h1
        injection h1 with h2
        intro x hx
        rw [List.isEmpty_iff.1 h2] at hx
        cases hx
      · simp only [matchFuel] at h
        set scr := scanChunk (pb :: prest) with hscr
        have hm47c : ∀ x ∈ scr.2.1, x ≠ 47 :=
          fun x hx => h47 x (scanChunk_mem _ x (Or.inl hx))
        have hm91c : ∀ x ∈ scr.2.1, x ≠ 91 :=
          fun x hx => h91 x (scanChunk_mem _ x (Or.inl hx))
        have hm47r : ∀ x ∈ scr.2.2, x ≠ 47 :=
          fun x hx => h47 x (scanChunk_mem _ x (Or.inr hx))
        have hm91r : ∀ x ∈ scr.2.2, x ≠ 91 :=
          fun x hx => h91 x (scanChunk_mem _ x (Or.inr hx))
        by_cases hsc : scr.1 = true ∧ scr.2.1.isEmpty = true
        · rw [if_pos hsc] at h
          injection h with h1
          injection h1 with h2
          intro x hx hx47
          subst hx47
          have h3 : hasByte 47 n = false := by simpa using h2
          exact (hasByte_eq_false_iff 47 n).1 h3 hx
        · rw [if_neg hsc] at h
          rcases hm : matchChunkFuel (scr.2.1.length + 1) scr.2.1 n false with _ | e
          · rw [hm] at h
            cases h
          · rcases e with e | ⟨t, okb⟩
            · rw [hm] at h
              cases e
              cases h
            · rw [hm] at h
              dsimp only at h
              by_cases hcommit : okb = true ∧ (t.isEmpty = true ∨ scr.2.2.isEmpty = false)
              · rw [if_pos hcommit] at h
                obtain ⟨hok, _⟩ := hcommit
                have htail := ih scr.2.2 t hm47r hm91r h
                rw [hok] at hm
                rcases matchChunkFuel_noSlash _ scr.2.1 n t hm47c hm91c hm
                  with ⟨u, hu, hu47⟩
                intro x hx
                rw [hu] at hx
                rcases List.mem_append.1 hx with hx | hx
                · exact hu47 x hx
                · exact htail x hx
              · rw [if_neg hcommit] at h
                by_cases hstar : scr.1 = true
                · rw [if_pos hstar] at h
                  rcases hsl : starLoop scr.2.1 scr.2.2.isEmpty n with _ | e2
                  · rw [hsl] at h
                    cases h
                  · rcases e2 with e2 | o
                    · rw [hsl] at h
                      cases e2
                      cases h
                    · rcases o with _ | t2
                      · rw [hsl] at h
                        dsimp only at h
                        exact (validateRest_not_ok_true _ _ h).elim
                      · rw [hsl] at h
                        dsimp only at h
                        have htail := ih scr.2.2 t2 hm47r hm91r h
                        rcases starLoop_noSlash n scr.2.1 scr.2.2.isEmpty t2 hm47c hm91c
                          hsl with ⟨u, hu, hu47⟩
                        intro x hx
                        rw [hu] at hx
                        rcases List.mem_append.1 hx with hx | hx
                        · exact hu47 x hx
                        · exact htail x hx
                · rw [if_neg hstar] at h
                  exact (validateRest_not_ok_true _ _ h).elim

theorem matchedBool_noSlash_false (p rel : List Nat)
    (h47 : ∀ x ∈ p, x ≠ 47) (h91 : ∀ x ∈ p, x ≠ 91) (hn : 47 ∈ rel) :
    matchedBool p rel = false := by
  unfold matchedBool goMatch
  rcases hm : matchFuel (p.length + 1) p rel with _ | e
  · rfl
  · rcases e with e | b
    · rfl
    · rcases b with _ | _
      · rfl
      · exact absurd rfl (matchFuel_noSlash (p.length + 1) p rel h47 h91 hm 47 hn)

/-- C10 counterexample: the exclude pattern `a[^x]b.go` contains no
path separator, yet its character class matches the separator, so it
excludes the nested file `a/b.go`; a separator-free `-i`/`-e` pattern
is therefore not restricted to entries directly under the root. -/
theorem c10_class_matches_separator :
    (∀ x ∈ bytesOf "a[^x]b.go", x ≠ 47) ∧
    matchedBool (bytesOf "a[^x]b.go") (bytesOf "a/b.go") = true ∧
    fileDecision ⟨25, [], [bytesOf "a[^x]b.go"]⟩ (bytesOf "a/b.go") true false 3 false [] =
      .skipped .excludedByPattern := by
  refine ⟨by decide, by decide, by decide⟩

/-- C10 (amended): for every `-i` include and `-e` exclude pattern
containing neither a path separator `/` nor a character class `[`, the
glob is evaluated against the full relative path and its `*`/`?`
wildcards never match a separator, so a nested path (one containing a
separator, such as `sub/a.log`) matches no such pattern: it is neither
excluded by `-e` nor included by `-i` (with `-i` patterns present it is
never accepted).  With a character class the restriction fails (see the
counterexample). -/
theorem c10_separator_free_patterns (cfg : Config) (rel : List Nat)
    (hpat : ∀ p ∈ cfg.includes ++ cfg.excludes, (∀ x ∈ p, x ≠ 47) ∧ (∀ x ∈ p, x ≠ 91))
    (hnested : 47 ∈ rel) :
    matchesAny cfg.includes rel = false ∧
    matchesAny cfg.excludes rel = false ∧
    (∀ (regular statErr : Bool) (size : Nat) (readErr : Bool) (content : List Nat),
      fileDecision cfg rel regular statErr size readErr content ≠
        .skipped .excludedByPattern) ∧
    (cfg.includes ≠ [] →
      ∀ (statErr : Bool) (size : Nat) (readErr : Bool) (content c : List Nat),
        fileDecision cfg rel true statErr size readErr content ≠ .accepted c) := by
  have hinc : matchesAny cfg.includes rel = false := by
    rw [matchesAny, List.any_eq_false]
    intro p hp
    simp only [Bool.not_eq_true]
    exact matchedBool_noSlash_false p rel
      (hpat p (List.mem_append.2 (Or.inl hp))).1
      (hpat p (List.mem_append.2 (Or.inl hp))).2 hnested
  have hexc : matchesAny cfg.excludes rel = false := by
    rw [matchesAny, List.any_eq_false]
    intro p hp
    simp only [Bool.not_eq_true]
    exact matchedBool_noSlash_false p rel
      (hpat p (List.mem_append.2 (Or.inr hp))).1
      (hpat p (List.mem_append.2 (Or.inr hp))).2 hnested
  refine ⟨hinc, hexc, ?_, ?_⟩
  · intro regular statErr size readErr content
    simp only [fileDecision, hexc]
    split_ifs <;> simp_all
  · intro hne statErr size readErr content c
    have hlen : 0 < cfg.includes.length := List.length_pos.mpr hne
    simp only [fileDecision, hexc, isIncludedB, if_pos hlen, hinc]
    split_ifs <;> simp_all

/-- Witness for `c10_separator_free_patterns`: `*.log` as both include
and exclude pattern, against the nested path `sub/a.log`. -/
theorem c10_witness :
    matchesAny [bytesOf "*.log"] (bytesOf "sub/a.log") = false ∧
    matchesAny [bytesOf "*.log"] (bytesOf "sub/a.log") = false := by
  have h := c10_separator_free_patterns ⟨25, [bytesOf "*.log"], [bytesOf "*.log"]⟩
    (bytesOf "sub/a.log") (by decide) (by decide)
  exact ⟨h.1, h.2.1⟩

/-! ## Fuel sufficiency

The canonical fuel `length + 1` passed by `goMatch` (and inside
`matchFuel`) is never exhausted: every loop iteration consumes at least
one element of the list whose length funds the fuel.  These sanity
lemmas show the fueled model never returns `none` on the program's call
pattern, so it cannot silently diverge from Go's `filepath.Match`. -/

theorem getEsc_length (chunk : List Nat) (r : Nat) (nc : List Nat)
    (h : getEsc chunk = .ok (r, nc)) : nc.length < chunk.length := by
  rcases chunk with _ | ⟨b, rest⟩
  · cases h
  · simp only [getEsc] at h
    by_cases hbr : b = 45 ∨ b = 93
    · rw [if_pos hbr] at h
      cases h
    · rw [if_neg hbr] at h
      rcases hch : (if b = 92 then (b :: rest).drop 1 else b :: rest) with _ | ⟨c1, c1rest⟩
      · rw [hch] at h
        cases h
      · rw [hch] at h
        dsimp only at h
        have hlen : (c1 :: c1rest).length ≤ (b :: rest).length := by
          by_cases hb92 : b = 92
          · rw [if_pos hb92] at hch
            have := congrArg List.length hch
            simp only [List.length_drop] at this
            omega
          · rw [if_neg hb92] at hch
            rw [hch]
        by_cases hre : (decodeRune (c1 :: c1rest)).1 = 0xFFFD ∧ (decodeRune (c1 :: c1rest)).2 = 1
        · rw [if_pos hre] at h
          cases h
        · rw [if_neg hre] at h
          rcases hdr : (c1 :: c1rest).drop (decodeRune (c1 :: c1rest)).2 with _ | ⟨d, drest⟩
          · rw [hdr] at h
            cases h
          · rw [hdr] at h
            injection h with h1
            injection h1 with h2 h3
            subst h3
            have hw1 : 1 ≤ (decodeRune (c1 :: c1rest)).2 := decodeRune_width_pos c1 c1rest
            have := congrArg List.length hdr
            simp only [List.length_drop, List.length_cons] at this hlen ⊢
            omega

theorem classRanges_consumes : ∀ (fuel : Nat) (chunk : List Nat) (r : Nat) (m : Bool)
    (k : Nat) (chunk2 : List Nat) (m2 : Bool),
    classRanges fuel chunk r m k = some (.ok (chunk2, m2)) →
    chunk2.length < chunk.length := by
  intro fuel
  induction fuel with
  | zero => intro chunk r m k chunk2 m2 h; cases h
  | succ fuel ih =>
      intro chunk r m k chunk2 m2 h
      simp only [classRanges] at h
      by_cases hbrk : chunk.head? = some 93 ∧ 0 < k
      · rw [if_pos hbrk] at h
        injection h with h1
        injection h1 with h2
        injection h2 with h3 h4
        subst h3
        rcases chunk with _ | ⟨c, rest⟩
        · cases hbrk.1
        · simp
      · rw [if_neg hbrk] at h
        rcases hge : getEsc chunk with e | ⟨lo, ch1⟩
        · rw [hge] at h
          cases e
          cases h
        · rw [hge] at h
          dsimp only at h
          have hlt1 := getEsc_length chunk lo ch1 hge
          rcases ch1 with _ | ⟨d, ch1rest⟩
          · dsimp only at h
            have := ih [] r _ (k + 1) chunk2 m2 h
            omega
          · split at h
            next ch2 heq =>
              injection heq with hd hch2
              subst hch2
              rcases hge2 : getEsc ch1rest with e | ⟨hi, ch3⟩
              · rw [hge2] at h
                cases e
                cases h
              · rw [hge2] at h
                dsimp only at h
                have hlt2 := getEsc_length ch1rest hi ch3 hge2
                have := ih ch3 r _ (k + 1) chunk2 m2 h
                simp only [List.length_cons] at hlt1
                omega
            next hne =>
              have := ih (d :: ch1rest) r _ (k + 1) chunk2 m2 h
              omega

theorem classRanges_fuel_sufficient : ∀ (fuel : Nat) (chunk : List Nat) (r : Nat)
    (m : Bool) (k : Nat), chunk.length < fuel → classRanges fuel chunk r m k ≠ none := by
  intro fuel
  induction fuel with
  | zero => intro chunk r m k hlt; omega
  | succ fuel ih =>
      intro chunk r m k hlt hnone
      simp only [classRanges] at hnone
      by_cases hbrk : chunk.head? = some 93 ∧ 0 < k
      · rw [if_pos hbrk] at hnone
        cases hnone
      · rw [if_neg hbrk] at hnone
        rcases hge : getEsc chunk with e | ⟨lo, ch1⟩
        · rw [hge] at hnone
          cases e
          cases hnone
        · rw [hge] at hnone
          dsimp only at hnone
          have hlt1 := getEsc_length chunk lo ch1 hge
          rcases ch1 with _ | ⟨d, ch1rest⟩
          · dsimp only at hnone
            exact ih [] r _ (k + 1) (by omega) hnone
          · split at hnone
            next ch2 heq =>
              injection heq with hd hch2
              subst hch2
              rcases hge2 : getEsc ch1rest with e | ⟨hi, ch3⟩
              · rw [hge2] at hnone
                cases e
                cases hnone
              · rw [hge2] at hnone
                dsimp only at hnone
                have hlt2 := getEsc_length ch1rest hi ch3 hge2
                exact ih ch3 r _ (k + 1)
                  (by simp only [List.length_cons] at hlt1; omega) hnone
            next hne =>
              exact ih (d :: ch1rest) r _ (k + 1) (by omega) hnone

theorem matchChunkFuel_fuel_sufficient : ∀ (fuel : Nat) (chunk s : List Nat)
    (failed : Bool), chunk.length < fuel → matchChunkFuel fuel chunk s failed ≠ none := by
  intro fuel
  induction fuel with
  | zero => intro chunk s failed hlt; omega
  | succ fuel ih =>
      intro chunk s failed hlt hnone
      rcases chunk with _ | ⟨c, chunkRest⟩
      · cases hnone
      · simp only [matchChunkFuel] at hnone
        simp only [List.length_cons] at hlt
        by_cases hc91 : c = 91
        · rw [if_pos hc91] at hnone
          set ch1 := if (chunkRest.head? = some 94 : Bool) = true then chunkRest.tail
            else chunkRest with hch1
          have hch1len : ch1.length ≤ chunkRest.length := by
            rw [hch1]
            split_ifs
            · simp [List.length_tail]
            · exact le_rfl
          rcases hcr : classRanges (ch1.length + 1) ch1
              (if (failed || s.isEmpty) = true then 0 else (decodeRune s).1) false 0
            with _ | e
          · exact classRanges_fuel_sufficient (ch1.length + 1) ch1 _ false 0
              (by omega) hcr
          · rcases e with e | ⟨chunk2, m⟩
            · rw [hcr] at hnone
              cases e
              cases hnone
            · rw [hcr] at hnone
              have hc2 := classRanges_consumes (ch1.length + 1) ch1 _ false 0 chunk2 m hcr
              exact ih chunk2 _ _ (by omega) hnone
        · rw [if_neg hc91] at hnone
          by_cases hc63 : c = 63
          · rw [if_pos hc63] at hnone
            split_ifs at hnone <;> exact ih chunkRest _ _ (by omega) hnone
          · rw [if_neg hc63] at hnone
            by_cases hc92 : c = 92
            · rw [if_pos hc92] at hnone
              rcases chunkRest with _ | ⟨e, chunkRest2⟩
              · cases hnone
              · simp only [List.length_cons] at hlt
                split_ifs at hnone <;> exact ih chunkRest2 _ _ (by omega) hnone
            · rw [if_neg hc92] at hnone
              split_ifs at hnone <;> exact ih chunkRest _ _ (by omega) hnone

theorem dropStars_length_le : ∀ (p : List Nat), (dropStars p).2.length ≤ p.length := by
  intro p
  induction p with
  | nil => simp [dropStars]
  | cons b rest ih =>
      simp only [dropStars]
      split_ifs
      · simp only [List.length_cons]
        omega
      · exact le_rfl

theorem dropStars_star_lt (p : List Nat) (h : (dropStars p).1 = true) :
    (dropStars p).2.length < p.length := by
  rcases p with _ | ⟨b, rest⟩
  · simp [dropStars] at h
  · by_cases hb : b = 42
    · simp only [dropStars, if_pos hb]
      have := dropStars_length_le rest
      simp only [List.length_cons]
      omega
    · simp [dropStars, hb] at h

theorem dropStars_false_eq (p : List Nat) (h : (dropStars p).1 = false) :
    (dropStars p).2 = p := by
  rcases p with _ | ⟨b, rest⟩
  · simp [dropStars]
  · by_cases hb : b = 42
    · simp [dropStars, hb] at h
    · simp [dropStars, hb]

/-- After `dropStars`, the remaining pattern does not start with `*`. -/
theorem dropStars_head_ne (p : List Nat) :
    (dropStars p).2 = [] ∨ (dropStars p).2.head? ≠ some 42 := by
  induction p with
  | nil => left; simp [dropStars]
  | cons b rest ih =>
      simp only [dropStars]
      split_ifs with hb
      · exact ih
      · right
        simp only [List.head?_cons]
        intro hc
        exact hb (Option.some.inj hc)

/-- A chunk scan starting at a non-star byte yields a non-empty chunk. -/
theorem scanBodyF_chunk_ne (fuel : Nat) (b : Nat) (rest : List Nat) (hb : b ≠ 42) :
    (scanBodyF (fuel + 1) false (b :: rest)).1 ≠ [] := by
  simp only [scanBodyF]
  split_ifs with h1 h2 h3 h4
  · simp
  · simp
  · simp
  · exact absurd h4.1 hb
  · simp

/-- For a non-empty pattern, the rest component of `scanChunk` is
strictly shorter than the pattern. -/
theorem scanChunk_rest_lt (p : List Nat) (hp : p ≠ []) :
    (scanChunk p).2.2.length < p.length := by
  have happ := scanBodyF_append (dropStars p).2.length false (dropStars p).2 le_rfl
  have hlen : (scanChunk p).2.1.length + (scanChunk p).2.2.length =
      (dropStars p).2.length := by
    have := congrArg List.length happ
    simp only [List.length_append] at this
    simpa [scanChunk, scanBody] using this
  rcases hst : (dropStars p).1 with _ | _
  · have heq := dropStars_false_eq p hst
    rcases hpp : p with _ | ⟨b, rest⟩
    · exact absurd hpp hp
    subst hpp
    have hb : b ≠ 42 := by
      rcases dropStars_head_ne (b :: rest) with hnil | hhd
      · rw [heq] at hnil
        simp at hnil
      · rw [heq] at hhd
        intro hc
        subst hc
        simp at hhd
    have hch : (scanChunk (b :: rest)).2.1 ≠ [] := by
      simp only [scanChunk, scanBody, heq, List.length_cons]
      exact scanBodyF_chunk_ne rest.length b rest hb
    rw [heq] at hlen
    have h1 : 0 < (scanChunk (b :: rest)).2.1.length := List.length_pos.mpr hch
    simp only [List.length_cons] at hlen ⊢
    omega
  · have h2 := dropStars_star_lt p hst
    omega

theorem starLoop_ne_none : ∀ (n chunk : List Nat) (re : Bool),
    starLoop chunk re n ≠ none := by
  intro n
  induction n with
  | nil => intro chunk re h; cases h
  | cons b nrest ih =>
      intro chunk re h
      simp only [starLoop] at h
      by_cases hb47 : b = 47
      · rw [if_pos hb47] at h
        cases h
      · rw [if_neg hb47] at h
        rcases hm : matchChunkFuel (chunk.length + 1) chunk nrest false with _ | e
        · exact matchChunkFuel_fuel_sufficient (chunk.length + 1) chunk nrest false
            (by omega) hm
        · rcases e with e | ⟨t, okb⟩
          · rw [hm] at h
            cases e
            cases h
          · rw [hm] at h
            rcases okb with _ | _
            · simp only [Bool.false_eq_true, if_false] at h
              exact ih chunk re h
            · simp only [if_pos rfl] at h
              split_ifs at h <;> exact ih chunk re h

theorem validateRest_fuel_sufficient : ∀ (fuel : Nat) (p : List Nat),
    p.length < fuel → validateRest fuel p ≠ none := by
  intro fuel
  induction fuel with
  | zero => intro p hlt; omega
  | succ fuel ih =>
      intro p hlt h
      rcases p with _ | ⟨b, rest⟩
      · cases h
      · simp only [validateRest] at h
        rcases hm : matchChunkFuel ((scanChunk (b :: rest)).2.1.length + 1)
            (scanChunk (b :: rest)).2.1 [] false with _ | e
        · exact matchChunkFuel_fuel_sufficient _ _ [] false (by omega) hm
        · rcases e with e | pr
          · rw [hm] at h
            cases e
            cases h
          · rw [hm] at h
            have hsr := scanChunk_rest_lt (b :: rest) (by simp)
            exact ih (scanChunk (b :: rest)).2.2
              (by simp only [List.length_cons] at hsr hlt; omega) h

theorem matchFuel_fuel_sufficient : ∀ (fuel : Nat) (p n : List Nat),
    p.length < fuel → matchFuel fuel p n ≠ none := by
  intro fuel
  induction fuel with
  | zero => intro p n hlt; omega
  | succ fuel ih =>
      intro p n hlt h
      rcases p with _ | ⟨pb, prest⟩
      · cases h
      · simp only [matchFuel] at h
        set scr := scanChunk (pb :: prest) with hscr
        have hrest := scanChunk_rest_lt (pb :: prest) (by simp)
        rw [← hscr] at hrest
        by_cases hsc : scr.1 = true ∧ scr.2.1.isEmpty = true
        · rw [if_pos hsc] at h
          cases h
        · rw [if_neg hsc] at h
          rcases hm : matchChunkFuel (scr.2.1.length + 1) scr.2.1 n false with _ | e
          · exact matchChunkFuel_fuel_sufficient _ _ n false (by omega) hm
          · rcases e with e | ⟨t, okb⟩
            · rw [hm] at h
              cases e
              cases h
            · rw [hm] at h
              dsimp only at h
              split_ifs at h with hcommit hstar
              · exact ih scr.2.2 t
                  (by simp only [List.length_cons] at hrest hlt ⊢; omega) h
              · rcases hsl : starLoop scr.2.1 scr.2.2.isEmpty n with _ | e2
                · exact starLoop_ne_none n scr.2.1 scr.2.2.isEmpty hsl
                · rcases e2 with e2 | o
                  · rw [hsl] at h
                    cases e2
                    cases h
                  · rcases o with _ | t2
                    · rw [hsl] at h
                      dsimp only at h
                      exact validateRest_fuel_sufficient _ scr.2.2 (by omega) h
                    · rw [hsl] at h
                      dsimp only at h
                      exact ih scr.2.2 t2
                        (by simp only [List.length_cons] at hrest hlt ⊢; omega) h
              · exact validateRest_fuel_sufficient _ scr.2.2 (by omega) h

/-- The canonical fuel of `goMatch` is never exhausted: the model
always returns Go's answer (a Boolean or `ErrBadPattern`). -/
theorem goMatch_fuel_sufficient (p n : List Nat) : goMatch p n ≠ none :=
  matchFuel_fuel_sufficient (p.length + 1) p n (by omega)
